import Mathlib

/-!
# Verification of the wikitext → Markdown conversion pipeline

This file gives a shallow embedding, over `List Char`, of the conversion
pipeline implemented in `wikidump_xml_to_markdown_fast.py`
(`wikitext_to_markdown` and its helpers), and proves or refutes the frozen
claims about it.

Modelling conventions:
* a Python string is a `List Char`; a Python `re.sub` call is a left-to-right
  scan (`scanSub` / `scanSubSt`) that, at each position, either fires a
  hand-compiled matcher for the concrete regex (consuming the match and
  emitting the replacement, scanning resuming after the replacement), or
  copies one character and advances — exactly the semantics of `re.sub`;
* the scanners take an explicit fuel argument, always instantiated with the
  length of the scanned text; every matcher consumes at least one character,
  so this fuel is never exhausted;
* Python whitespace (`\s`, `str.strip`) is modelled on its ASCII part;
* `html.unescape` (Python standard library, step 1 of the pipeline) and the
  inline transform steps 6 and 8–15 of the source are outside the embedded
  core; the model `convertModel` composes, in source order, the stages the
  claims are about: the size guard, the preservation stage, comment removal,
  template removal, table conversion, emphasis conversion, restoration of the
  preserved blocks and the final cleanup, with the four timeout checkpoints
  of the source modelled by a boolean trip oracle.
-/

namespace WikiMD

/-- ASCII part of Python's `\s` / `str.strip` whitespace. -/
def pyWs (c : Char) : Bool :=
  c == ' ' || c == '\t' || c == '\n' || c == '\r' || c == '\x0b' || c == '\x0c'

/-- Model of Python `str.strip()`. -/
def pyStrip (s : List Char) : List Char :=
  ((s.dropWhile pyWs).reverse.dropWhile pyWs).reverse

/-- Case-insensitive character comparison (model of `re.IGNORECASE`). -/
def lowEq (a b : Char) : Bool := a.toLower == b.toLower

/-- `isPre p s`: `s` starts with `p` (exact). -/
def isPre : List Char → List Char → Bool
  | [], _ => true
  | _ :: _, [] => false
  | p :: ps, c :: cs => p == c && isPre ps cs

/-- `isPreCI p s`: `s` starts with `p`, case-insensitively. -/
def isPreCI : List Char → List Char → Bool
  | [], _ => true
  | _ :: _, [] => false
  | p :: ps, c :: cs => lowEq p c && isPreCI ps cs

/-- `containsSub pat s`: `pat` occurs as a contiguous substring of `s`. -/
def containsSub (pat : List Char) : List Char → Bool
  | [] => isPre pat []
  | c :: cs => isPre pat (c :: cs) || containsSub pat cs

/-- Find the first exact occurrence of `pat`; returns the text before the
occurrence and the text after it. -/
def findSub (pat : List Char) : List Char → Option (List Char × List Char)
  | [] => if isPre pat [] then some ([], []) else none
  | c :: cs =>
    if isPre pat (c :: cs) then some ([], (c :: cs).drop pat.length)
    else
      match findSub pat cs with
      | some (pre, post) => some (c :: pre, post)
      | none => none

/-- Find the first occurrence of `'<' :: pat` with `pat` matched
case-insensitively (used for closing tags of the preservation regexes,
whose `(.*?)` group is non-greedy); returns the text before the occurrence
and the text after it. -/
def findClose (pat : List Char) : List Char → Option (List Char × List Char)
  | [] => none
  | c :: cs =>
    if c = '<' ∧ isPreCI pat cs then some ([], cs.drop pat.length)
    else
      match findClose pat cs with
      | some (pre, post) => some (c :: pre, post)
      | none => none

/-- The substitution engine: model of one `re.sub` pass.  At each position
`step` either fires (returning new state, replacement text and the text
after the match) or the current character is copied.  `onChar` updates the
state over copied characters (used for `re.MULTILINE` line anchors). -/
def scanSubSt {σ : Type} (step : σ → List Char → Option (σ × List Char × List Char))
    (onChar : σ → Char → σ) : Nat → σ → List Char → σ × List Char
  | 0, st, s => (st, s)
  | _ + 1, st, [] => (st, [])
  | fuel + 1, st, c :: cs =>
    match step st (c :: cs) with
    | some (st', repl, rest) =>
      let r := scanSubSt step onChar fuel st' rest
      (r.1, repl ++ r.2)
    | none =>
      let r := scanSubSt step onChar fuel (onChar st c) cs
      (r.1, c :: r.2)

/-- Stateless substitution engine. -/
def scanSub (step : List Char → Option (List Char × List Char)) :
    Nat → List Char → List Char
  | 0, s => s
  | _ + 1, [] => []
  | fuel + 1, c :: cs =>
    match step (c :: cs) with
    | some (repl, rest) => repl ++ scanSub step fuel rest
    | none => c :: scanSub step fuel cs

/-- Run one stateless substitution pass over a whole string. -/
def runSub (step : List Char → Option (List Char × List Char))
    (s : List Char) : List Char :=
  scanSub step s.length s

/-- Python `str.split('\n')`. -/
def splitLines : List Char → List (List Char)
  | [] => [[]]
  | c :: cs =>
    if c = '\n' then [] :: splitLines cs
    else
      match splitLines cs with
      | l :: ls => (c :: l) :: ls
      | [] => [[c]]

/-- Inverse of `splitLines`: join with `'\n'`. -/
def joinLines : List (List Char) → List Char
  | [] => []
  | [l] => l
  | l :: ls => l ++ '\n' :: joinLines ls

/-- Python `str.split(sep)` for a non-empty separator (non-overlapping,
left to right). -/
def splitOnSub (sep : List Char) : Nat → List Char → List (List Char)
  | 0, s => [s]
  | fuel + 1, s =>
    match findSub sep s with
    | some (pre, post) => pre :: splitOnSub sep fuel post
    | none => [s]

/-- Number of non-overlapping occurrences of `pat`, scanning left to right
(the occurrences Python's `str.replace` rewrites). -/
def countOccs (pat : List Char) : Nat → List Char → Nat
  | 0, _ => 0
  | _ + 1, [] => if isPre pat [] then 1 else 0
  | fuel + 1, c :: cs =>
    if isPre pat (c :: cs) then 1 + countOccs pat fuel ((c :: cs).drop pat.length)
    else countOccs pat fuel cs

/-- Python `str.replace pat repl` (all non-overlapping occurrences, left to
right; the replacement text is not rescanned). -/
def replaceAll (pat repl : List Char) (s : List Char) : List Char :=
  runSub (fun t => if isPre pat t ∧ pat ≠ [] then some (repl, t.drop pat.length) else none) s

/-- Try a matcher at every position, left to right (model of `re.search`):
the result of the first position at which it fires. -/
def searchFirst {α : Type} (m : List Char → Option α) : List Char → Option α
  | [] => none
  | c :: cs =>
    match m (c :: cs) with
    | some r => some r
    | none => searchFirst m cs

/-! ## Preservation stage (step 2 of `wikitext_to_markdown`)

The preservation functions `preserve_nowiki`, `preserve_math`,
`preserve_chem`, `preserve_pre`, `preserve_syntax` close over a shared
`preserved_blocks` dict and `block_counter`; each match mints a fresh
placeholder key `__PRESERVED_<FAMILY>_<n>__` and stores the rendered
replacement in the table. -/

/-- The placeholder table and counter closed over by the preservation
functions.  `blocks` is kept in insertion order (the iteration order of the
Python dict at the restoration step). -/
structure PresState where
  blocks : List (List Char × List Char)
  counter : Nat
deriving DecidableEq, Repr

/-- The placeholder key `__PRESERVED_<fam>_<n>__`. -/
def presKey (fam : List Char) (n : Nat) : List Char :=
  "__PRESERVED_".data ++ fam ++ '_' :: (Nat.repr n).data ++ "__".data

/-- State update over copied characters for the stateful passes: the
preservation state is unchanged by characters that are merely copied. -/
def keepSt (st : PresState) (_ : Char) : PresState := st

/-- Model of the regex `<OPEN(.*?)</CLOSE>` with a literal (attribute-free)
opening tag, matched at the current position (`open_` is the opening tag
after `'<'`, e.g. `"nowiki>"`; `close` is the closing tag after `'<'`, e.g.
`"/nowiki>"`).  Returns the non-greedy content and the rest. -/
def exactTagAt (open_ close : List Char) (s : List Char) :
    Option (List Char × List Char) :=
  match s with
  | '<' :: cs => if isPreCI open_ cs then findClose close (cs.drop open_.length) else none
  | _ => none

/-- Model of the regex `<NAME[^>]*>(.*?)</NAME>` (DOTALL, IGNORECASE)
matched at the current position.  Returns
`(full match, attributes, content, rest)`. -/
def tagAt (name : List Char) (s : List Char) :
    Option (List Char × List Char × List Char × List Char) :=
  match s with
  | '<' :: cs =>
    if isPreCI name cs then
      let afterName := cs.drop name.length
      let attrs := afterName.takeWhile (fun c => c ≠ '>')
      match afterName.drop attrs.length with
      | '>' :: body =>
        match findClose ('/' :: name ++ ['>']) body with
        | some (content, rest) =>
          some ((('<' :: cs).take (('<' :: cs).length - rest.length), attrs, content, rest))
        | none => none
      | _ => none
    else none
  | _ => none

/-- The rendering decision of `preserve_math`, computed from the full
matched text and the raw captured content: a chemistry block when `'chem'`
occurs in the lowercased full match, otherwise a fenced `math` block when
the raw content has a newline, the stripped content exceeds 50 characters
or an explicit `display=block` attribute occurs in the full match, and
otherwise inline `$...$`. -/
def mathValue (full contentRaw : List Char) : List Char :=
  let content := pyStrip contentRaw
  let isChem := containsSub "chem".data (full.map Char.toLower)
  let isDisp := containsSub "display=\"block\"".data full ||
    containsSub "display=block".data full
  if isChem then "\n```chemistry\n".data ++ content ++ "\n```\n".data
  else if contentRaw.contains '\n' || 50 < content.length || isDisp then
    "\n```math\n".data ++ content ++ "\n```\n".data
  else '$' :: content ++ ['$']

/-- The rendering of `preserve_chem`: always a fenced `chemistry` block. -/
def chemValue (contentRaw : List Char) : List Char :=
  "\n```chemistry\n".data ++ pyStrip contentRaw ++ "\n```\n".data

/-- The rendering of `preserve_pre`: a fenced block with no language tag. -/
def preValue (contentRaw : List Char) : List Char :=
  "\n```\n".data ++ pyStrip contentRaw ++ "\n```\n".data

/-- Language-alias table of `preserve_syntax`. -/
def langMap : List (List Char × List Char) :=
  [("c++".data, "cpp".data), ("c#".data, "csharp".data),
   ("js".data, "javascript".data), ("py".data, "python".data),
   ("rb".data, "ruby".data), ("sh".data, "bash".data),
   ("shell".data, "bash".data), ("console".data, "bash".data),
   ("mysql".data, "sql".data), ("postgresql".data, "sql".data),
   ("html5".data, "html".data), ("xhtml".data, "html".data),
   ("xml".data, "xml".data), ("yaml".data, "yaml".data),
   ("yml".data, "yaml".data)]

/-- `lang_map.get(lang, lang)`. -/
def langAlias (lang : List Char) : List Char :=
  match langMap.find? (fun p => p.1 = lang) with
  | some p => p.2
  | none => lang

/-- Matcher for `lang=["\']?([^"\'>\s]+)["\']?` at the current position. -/
def langEqAt (kw : List Char) (t : List Char) : Option (List Char) :=
  if isPreCI kw t then
    let t1 := t.drop kw.length
    let t2 := match t1 with
      | '"' :: r => r
      | '\'' :: r => r
      | _ => t1
    let tok := t2.takeWhile (fun c => c ≠ '"' ∧ c ≠ '\'' ∧ c ≠ '>' ∧ ¬ pyWs c)
    if tok = [] then none else some tok
  else none

/-- Matcher for `<(?:syntaxhighlight|source)\s+([^>\s]+)(?:\s|>)` at the
current position. -/
def bareLangAt (t : List Char) : Option (List Char) :=
  match t with
  | '<' :: cs =>
    let afterName :=
      if isPreCI "syntaxhighlight".data cs then some (cs.drop 15)
      else if isPreCI "source".data cs then some (cs.drop 6)
      else none
    match afterName with
    | some u =>
      let ws := u.takeWhile pyWs
      if ws = [] then none
      else
        let v := u.drop ws.length
        let tok := v.takeWhile (fun c => c ≠ '>' ∧ ¬ pyWs c)
        if tok = [] then none
        else
          match v.drop tok.length with
          | c :: _ => if c = '>' ∨ pyWs c then some tok else none
          | [] => none
    | none => none
  | _ => none

/-- The language extraction of `preserve_syntax`: the three search patterns
tried in order over the full matched text, the result lowercased and pushed
through the alias table, defaulting to `text`. -/
def synLang (full : List Char) : List Char :=
  let found :=
    match searchFirst (langEqAt "lang=".data) full with
    | some tok => some tok
    | none =>
      match searchFirst (langEqAt "language=".data) full with
      | some tok => some tok
      | none => searchFirst bareLangAt full
  match found with
  | some tok => langAlias (tok.map Char.toLower)
  | none => langAlias "text".data

/-- The rendering of `preserve_syntax`: a fenced block tagged with the
extracted language. -/
def synValue (full contentRaw : List Char) : List Char :=
  "\n```".data ++ synLang full ++ '\n' :: pyStrip contentRaw ++ "\n```\n".data

/-- Mint a placeholder for family `fam` with value `value`: the replacement
is the fresh key, which is recorded in the table and the counter bumped. -/
def mint (fam value : List Char) (st : PresState) : PresState × List Char :=
  let key := presKey fam st.counter
  ({ blocks := st.blocks ++ [(key, value)], counter := st.counter + 1 }, key)

/-- Step of `re.sub(r'<nowiki>(.*?)</nowiki>', preserve_nowiki, ...)`:
the content is stored byte-for-byte. -/
def nowikiStep (st : PresState) (s : List Char) :
    Option (PresState × List Char × List Char) :=
  match exactTagAt "nowiki>".data "/nowiki>".data s with
  | some (content, rest) =>
    let r := mint "NOWIKI".data content st
    some (r.1, r.2, rest)
  | none => none

/-- Matcher of `re.sub(r'<nowiki\s*/>', '', ...)`. -/
def nowikiSelfAt (s : List Char) : Option (List Char × List Char) :=
  match s with
  | '<' :: cs =>
    if isPreCI "nowiki".data cs then
      let u := cs.drop 6
      let ws := u.takeWhile pyWs
      match u.drop ws.length with
      | '/' :: '>' :: rest => some ([], rest)
      | _ => none
    else none
  | _ => none

/-- Step of `re.sub(r'<math[^>]*>(.*?)</math>', preserve_math, ...)`. -/
def mathStep (st : PresState) (s : List Char) :
    Option (PresState × List Char × List Char) :=
  match tagAt "math".data s with
  | some (full, _, content, rest) =>
    let r := mint "MATH".data (mathValue full content) st
    some (r.1, r.2, rest)
  | none => none

/-- Model of `<math\s+chem[^>]*>(.*?)</math>` at the current position. -/
def mathChemAt (s : List Char) :
    Option (List Char × List Char × List Char) :=
  match s with
  | '<' :: cs =>
    if isPreCI "math".data cs then
      let u := cs.drop 4
      let ws := u.takeWhile pyWs
      if ws = [] then none
      else if isPreCI "chem".data (u.drop ws.length) then
        let afterChem := (u.drop ws.length).drop 4
        let attrs := afterChem.takeWhile (fun c => c ≠ '>')
        match afterChem.drop attrs.length with
        | '>' :: body =>
          match findClose "/math>".data body with
          | some (content, rest) =>
            some ((('<' :: cs).take (('<' :: cs).length - rest.length), content, rest))
          | none => none
        | _ => none
      else none
    else none
  | _ => none

/-- Step of the second math pass,
`re.sub(r'<math\s+chem[^>]*>(.*?)</math>', preserve_math, ...)` (its
matches are a subset of the first math pass's, so it never fires after it,
but it is part of the source). -/
def mathChemStep (st : PresState) (s : List Char) :
    Option (PresState × List Char × List Char) :=
  match mathChemAt s with
  | some (full, content, rest) =>
    let r := mint "MATH".data (mathValue full content) st
    some (r.1, r.2, rest)
  | none => none

/-- Step of the `<chem>`/`<ce>` passes (`preserve_chem`). -/
def chemStep (name : List Char) (st : PresState) (s : List Char) :
    Option (PresState × List Char × List Char) :=
  match tagAt name s with
  | some (_, _, content, rest) =>
    let r := mint "CHEM".data (chemValue content) st
    some (r.1, r.2, rest)
  | none => none

/-- Step of the `<pre>` pass (`preserve_pre`). -/
def preStep (st : PresState) (s : List Char) :
    Option (PresState × List Char × List Char) :=
  match tagAt "pre".data s with
  | some (_, _, content, rest) =>
    let r := mint "PRE".data (preValue content) st
    some (r.1, r.2, rest)
  | none => none

/-- Matcher of `re.sub(r'<code[^>]*>(.*?)</code>', lambda m: f"`{m.group(1)}`", ...)`:
inline code span, no placeholder minted. -/
def codeAt (s : List Char) : Option (List Char × List Char) :=
  match tagAt "code".data s with
  | some (_, _, content, rest) => some ('`' :: content ++ ['`'], rest)
  | none => none

/-- Step of the `<syntaxhighlight>`/`<source>` passes (`preserve_syntax`). -/
def synStep (name : List Char) (st : PresState) (s : List Char) :
    Option (PresState × List Char × List Char) :=
  match tagAt name s with
  | some (full, _, content, rest) =>
    let r := mint "SYNTAX".data (synValue full content) st
    some (r.1, r.2, rest)
  | none => none

/-- Matcher of the `<code lang=...>` fenced-block pass (line 247 of the
source; the earlier inline `<code>` pass already consumed every code tag,
so it never fires, but it is part of the source). -/
def codeLangAt (s : List Char) : Option (List Char × List Char) :=
  match s with
  | '<' :: cs =>
    if isPreCI "code".data cs then
      let u := cs.drop 4
      let ws := u.takeWhile pyWs
      if ws = [] then none
      else
        match langEqAt "lang=".data (u.drop ws.length) with
        | some tok =>
          let afterKw := (u.drop ws.length).drop 5
          let afterQ := match afterKw with
            | '"' :: r => r
            | '\'' :: r => r
            | _ => afterKw
          let afterTok := afterQ.drop tok.length
          let afterTok' := match afterTok with
            | '"' :: r => r
            | '\'' :: r => r
            | _ => afterTok
          let attrs := afterTok'.takeWhile (fun c => c ≠ '>')
          match afterTok'.drop attrs.length with
          | '>' :: body =>
            match findClose "/code>".data body with
            | some (content, rest) =>
              some ("\n```".data ++ tok ++ '\n' :: pyStrip content ++ "\n```\n".data, rest)
            | none => none
          | _ => none
        | none => none
    else none
  | _ => none

/-- Run one stateful (minting) pass over a whole string. -/
def runMint (step : PresState → List Char → Option (PresState × List Char × List Char))
    (st : PresState) (s : List Char) : PresState × List Char :=
  scanSubSt step keepSt s.length st s

/-- The whole preservation stage (step 2 of the source): the eleven
substitution passes in source order, threading the shared table/counter. -/
def preserveStage (s : List Char) : PresState × List Char :=
  let r1 := runMint nowikiStep ⟨[], 0⟩ s
  let s2 := runSub nowikiSelfAt r1.2
  let r3 := runMint mathStep r1.1 s2
  let r4 := runMint mathChemStep r3.1 r3.2
  let r5 := runMint (chemStep "chem".data) r4.1 r4.2
  let r6 := runMint (chemStep "ce".data) r5.1 r5.2
  let r7 := runMint preStep r6.1 r6.2
  let s8 := runSub codeAt r7.2
  let r9 := runMint (synStep "syntaxhighlight".data) r7.1 s8
  let r10 := runMint (synStep "source".data) r9.1 r9.2
  let s11 := runSub codeLangAt r10.2
  (r10.1, s11)

/-! ## Comment removal (step 3) -/

/-- Matcher of `re.sub(r'<!--.*?-->', '', ..., flags=re.DOTALL)`. -/
def commentAt (s : List Char) : Option (List Char × List Char) :=
  match s with
  | '<' :: '!' :: '-' :: '-' :: cs =>
    match findSub "-->".data cs with
    | some (_, post) => some ([], post)
    | none => none
  | _ => none

/-- Comment-removal stage. -/
def removeComments (s : List Char) : List Char := runSub commentAt s

/-! ## Template removal (step 4, `remove_complex_templates`) -/

/-- The title extraction of the citation rewrite: matcher for
`\|?\s*title\s*=\s*([^|}]+)` at the current position inside the brace-free
template body. -/
def titleCap (t : List Char) : Option (List Char) :=
  let t1 := match t with
    | '|' :: r => r
    | _ => t
  let t2 := t1.dropWhile pyWs
  if isPreCI "title".data t2 then
    match (t2.drop 5).dropWhile pyWs with
    | '=' :: t4 =>
      let cap := (t4.dropWhile pyWs).takeWhile (fun c => c ≠ '|' ∧ c ≠ '}')
      if cap = [] then none else some cap
    | _ => none
  else none

/-- Backtracking of the greedy `[^}]*` before the title group: the regex
engine ends up using the rightmost position inside the body at which the
title pattern matches. -/
def rightmostTitle : List Char → Option (List Char)
  | [] => none
  | c :: cs =>
    match rightmostTitle cs with
    | some cap => some cap
    | none => titleCap (c :: cs)

/-- Matcher of
`re.sub(r'\{\{cite\s+[^}]*\|?\s*title\s*=\s*([^|}]+)[^}]*\}\}',
r'*(Reference: \1)*', ..., flags=re.IGNORECASE)`. -/
def citeAt (s : List Char) : Option (List Char × List Char) :=
  match s with
  | '{' :: '{' :: cs =>
    if isPreCI "cite".data cs then
      let body := (cs.drop 4).takeWhile (fun c => c ≠ '}')
      match body, (cs.drop 4).drop body.length with
      | w :: rg, '}' :: '}' :: rest =>
        if pyWs w then
          match rightmostTitle rg with
          | some cap => some ("*(Reference: ".data ++ cap ++ ")*".data, rest)
          | none => none
        else none
      | _, _ => none
    else none
  | _ => none

/-- Matcher of `\{\{KW\s*\|\s*([^|}]+)[^}]*\}\}` (IGNORECASE), shared by the
quote and main rewrites; returns the first-parameter capture and the rest. -/
def pipeCapAt (kw : List Char) (s : List Char) : Option (List Char × List Char) :=
  match s with
  | '{' :: '{' :: cs =>
    if isPreCI kw cs then
      match (cs.drop kw.length).dropWhile pyWs with
      | '|' :: v =>
        let v' := v.dropWhile pyWs
        let cap := v'.takeWhile (fun c => c ≠ '|' ∧ c ≠ '}')
        if cap = [] then none
        else
          let tl := (v'.drop cap.length).takeWhile (fun c => c ≠ '}')
          match (v'.drop cap.length).drop tl.length with
          | '}' :: '}' :: rest => some (cap, rest)
          | _ => none
      | _ => none
    else none
  | _ => none

/-- Matcher of the quote rewrite (`{{quote|text|...}}` → `> text`). -/
def quoteAt (s : List Char) : Option (List Char × List Char) :=
  match pipeCapAt "quote".data s with
  | some (cap, rest) => some ("> ".data ++ cap, rest)
  | none => none

/-- Matcher of the main rewrite
(`{{main|Target|...}}` → `*See main article: [Target](Target)*`). -/
def mainAt (s : List Char) : Option (List Char × List Char) :=
  match pipeCapAt "main".data s with
  | some (cap, rest) =>
    some ("*See main article: [".data ++ cap ++ "](".data ++ cap ++ ")*".data, rest)
  | none => none

/-- Body of the lazy template matcher after its `{{`: the greedy `[^}]*`
run, which must be followed by `}}`. -/
def lazyCore (cs : List Char) : Option (List Char × List Char) :=
  let body := cs.takeWhile (fun c => c ≠ '}')
  match cs.drop body.length with
  | '}' :: '}' :: rest => some (body, rest)
  | _ => none

/-- Matcher of the lazy template substitution
`re.sub(r'\{\{([^}]*)\}\}', r'\1', ...)`: delete the brace pair, keep the
brace-free body. -/
def lazyAt : List Char → Option (List Char × List Char)
  | '{' :: '{' :: cs => lazyCore cs
  | _ => none

/-- The lazy (non-nesting-aware) template strip used by every fallback and
timeout path. -/
def lazySub (s : List Char) : List Char := runSub lazyAt s

/-- The balanced-brace scan of `remove_complex_templates` (lines 293–318 of
the source).  The Python loop keeps a stack of opening positions, of which
only the length is ever used, modelled here by `depth`; `count` is
`iteration_count`, `maxIter` is `max_iterations`.  Returns the collected
output, the final iteration count and the unscanned remainder (`text[i:]`,
non-empty only when the iteration budget stopped the loop). -/
def braceLoop (maxIter : Nat) : Nat → List Char → Nat → Nat → List Char × Nat × List Char
  | 0, rest, _, count => ([], count, rest)
  | _ + 1, [], _, count => ([], count, [])
  | fuel + 1, c :: rs, depth, count =>
    if maxIter ≤ count then ([], count, c :: rs)
    else if c = '{' ∧ rs.head? = some '{' then
      if 50 ≤ depth then braceLoop maxIter fuel rs.tail depth (count + 1)
      else braceLoop maxIter fuel rs.tail (depth + 1) (count + 1)
    else if c = '}' ∧ rs.head? = some '}' then
      braceLoop maxIter fuel rs.tail (depth - 1) (count + 1)
    else
      let r := braceLoop maxIter fuel rs depth (count + 1)
      if depth = 0 then (c :: r.1, r.2.1, r.2.2) else r

/-- The balanced-brace scan run on a whole string, with the source's
iteration budget `2 * len(text)`. -/
def braceScanOut (s : List Char) : List Char × Nat × List Char :=
  braceLoop (2 * s.length) s.length s 0 0

/-- Whether the post-loop iteration-budget fallback branch
(`iteration_count >= max_iterations`, line 321 of the source) is taken. -/
def iterFallback (s : List Char) : Bool :=
  2 * s.length ≤ (braceScanOut s).2.1

/-- The generic balanced-brace removal (lines 285–326 of the source): the
scan, followed by the lazy fallback on `''.join(result) + text[i:]` when
the iteration budget was reached. -/
def genericBraceRemoval (s : List Char) : List Char :=
  let r := braceScanOut s
  if 2 * s.length ≤ r.2.1 then lazySub (r.1 ++ r.2.2) else r.1

/-- `remove_complex_templates`: the 1 MB early exit, the three
content-preserving rewrites (cite, quote, main) and the generic
balanced-brace removal. -/
def removeComplexTemplates (s : List Char) : List Char :=
  if 1000000 < s.length then lazySub s
  else genericBraceRemoval (runSub mainAt (runSub quoteAt (runSub citeAt s)))

/-! ## Table conversion (step 5, `convert_wikitable` and `clean_table_cell`) -/

/-- `content.split('|')` with everything after the first `'|'` rejoined:
the attribute-dropping prefix split of `clean_table_cell`. -/
def dropAttrPrefix (content : List Char) : List Char :=
  match findSub ['|'] content with
  | some (_, post) => post
  | none => content

/-- Matcher of `KW"[^"]*"` (IGNORECASE), the attribute-removal regexes
(`scope=`, `rowspan=`, ..., `height=`). -/
def attrAt (kw : List Char) (t : List Char) : Option (List Char × List Char) :=
  if isPreCI kw t then
    match t.drop kw.length with
    | '"' :: u =>
      let val := u.takeWhile (fun c => c ≠ '"')
      match u.drop val.length with
      | '"' :: rest => some ([], rest)
      | _ => none
    | _ => none
  else none

/-- Matcher of `'''(.*?)'''` (no DOTALL: the content cannot span lines). -/
def boldCellAt (t : List Char) : Option (List Char × List Char) :=
  match t with
  | '\'' :: '\'' :: '\'' :: u =>
    match findSub "'''".data u with
    | some (content, rest) =>
      if content.contains '\n' then none
      else some ("**".data ++ content ++ "**".data, rest)
    | none => none
  | _ => none

/-- Matcher of `''(.*?)''` (no DOTALL). -/
def italCellAt (t : List Char) : Option (List Char × List Char) :=
  match t with
  | '\'' :: '\'' :: u =>
    match findSub "''".data u with
    | some (content, rest) =>
      if content.contains '\n' then none
      else some ('*' :: content ++ ['*'], rest)
    | none => none
  | _ => none

/-- Matcher of `\[\[([^|\]]+)\|([^\]]+)\]\]` → `[\2](\1)`. -/
def pipedLinkAt (t : List Char) : Option (List Char × List Char) :=
  match t with
  | '[' :: '[' :: u =>
    let g1 := u.takeWhile (fun c => c ≠ '|' ∧ c ≠ ']')
    if g1 = [] then none
    else
      match u.drop g1.length with
      | '|' :: v =>
        let g2 := v.takeWhile (fun c => c ≠ ']')
        if g2 = [] then none
        else
          match v.drop g2.length with
          | ']' :: ']' :: rest =>
            some ('[' :: g2 ++ "](".data ++ g1 ++ [')'], rest)
          | _ => none
      | _ => none
  | _ => none

/-- Matcher of `\[\[([^\]]+)\]\]` → `[\1](\1)`. -/
def simpleLinkAt (t : List Char) : Option (List Char × List Char) :=
  match t with
  | '[' :: '[' :: u =>
    let g := u.takeWhile (fun c => c ≠ ']')
    if g = [] then none
    else
      match u.drop g.length with
      | ']' :: ']' :: rest => some ('[' :: g ++ "](".data ++ g ++ [')'], rest)
      | _ => none
  | _ => none

/-- `clean_table_cell`: drop the leading `attribute|` segment, remove HTML
attributes, convert emphasis and links, strip. -/
def cleanTableCell (content : List Char) : List Char :=
  if content = [] then []
  else
    let c1 := dropAttrPrefix content
    let c2 := runSub (attrAt "scope=".data) c1
    let c3 := runSub (attrAt "rowspan=".data) c2
    let c4 := runSub (attrAt "colspan=".data) c3
    let c5 := runSub (attrAt "style=".data) c4
    let c6 := runSub (attrAt "class=".data) c5
    let c7 := runSub (attrAt "align=".data) c6
    let c8 := runSub (attrAt "valign=".data) c7
    let c9 := runSub (attrAt "width=".data) c8
    let c10 := runSub (attrAt "height=".data) c9
    let c11 := runSub boldCellAt c10
    let c12 := runSub italCellAt c11
    let c13 := runSub pipedLinkAt c12
    let c14 := runSub simpleLinkAt c13
    pyStrip c14

/-- The accumulator of the structural table parse: collected header cells,
completed data rows, and the row being accumulated. -/
structure TState where
  headers : List (List Char)
  rows : List (List (List Char))
  current : List (List Char)
deriving DecidableEq, Repr

/-- Processing of one (stripped) table line by the structural parse loop of
`convert_wikitable`. -/
def tableLine (st : TState) (line : List Char) : TState :=
  let l := pyStrip line
  if l = [] ∨ isPre "\x7b|".data l ∨ isPre "|\x7d".data l then st
  else if isPre "|-".data l then
    if st.current ≠ [] then { st with rows := st.rows ++ [st.current], current := [] }
    else { st with current := [] }
  else if isPre "!".data l then
    let hc := pyStrip (l.drop 1)
    let cells := splitOnSub "!!".data hc.length hc
    { st with headers := st.headers ++
        (cells.map (fun cell => pyStrip (cleanTableCell cell))).filter (fun h => h ≠ []) }
  else if isPre "|".data l then
    let cc := pyStrip (l.drop 1)
    let parts := splitOnSub "||".data cc.length cc
    { st with current := st.current ++ parts.map (fun p => pyStrip (cleanTableCell p)) }
  else st

/-- `' | '`-intercalation of cells. -/
def joinList (sep : List Char) : List (List Char) → List Char
  | [] => []
  | [x] => x
  | x :: xs => x ++ sep ++ joinList sep xs

/-- One emitted Markdown table row: `'| ' + ' | '.join(cells) + ' |'`. -/
def renderRow (cells : List (List Char)) : List Char :=
  "| ".data ++ joinList " | ".data cells ++ " |".data

/-- Pad a data row with empty cells to the header count, then truncate to
the header count (the emission loop of `convert_wikitable`). -/
def padTrunc (n : Nat) (r : List (List Char)) : List (List Char) :=
  (r ++ List.replicate (n - r.length) []).take n

/-- The Markdown-row emission of `convert_wikitable` from the parsed
headers and data rows. -/
def buildTable (headers : List (List Char)) (rows : List (List (List Char))) :
    List (List Char) :=
  if headers ≠ [] then
    renderRow headers ::
      renderRow (List.replicate headers.length "---".data) ::
      rows.map (fun r => renderRow (padTrunc headers.length r))
  else if rows ≠ [] then
    let maxCols := (rows.map List.length).foldr max 0
    if 0 < maxCols then
      renderRow ((List.range maxCols).map (fun i => "Col ".data ++ (Nat.repr (i + 1)).data)) ::
        renderRow (List.replicate maxCols "---".data) ::
        rows.map (fun r => renderRow (r ++ List.replicate (maxCols - r.length) []))
    else []
  else []

/-- Step of `re.sub(r'^\|', '', ..., flags=re.MULTILINE)`: the state is the
line-start flag of the `^` anchor. -/
def mlPipeStep (atLS : Bool) (t : List Char) : Option (Bool × List Char × List Char) :=
  match t with
  | '|' :: rest => if atLS then some (false, [], rest) else none
  | _ => none

/-- `re.sub(r'^\|', '', ..., flags=re.MULTILINE)`. -/
def mlPipeStrip (s : List Char) : List Char :=
  (scanSubSt mlPipeStep (fun _ c => c = '\n') s.length true s).2

/-- Matcher of `re.sub(r'\|-\s*', '\n', ...)`. -/
def rowSepAt (t : List Char) : Option (List Char × List Char) :=
  match t with
  | '|' :: '-' :: u => some (['\n'], u.dropWhile pyWs)
  | _ => none

/-- Step of `re.sub(r'^\!\s*', '**', ..., flags=re.MULTILINE)`: the greedy
`\s*` may consume newlines, so the next scan position is again a line start
exactly when the consumed run ends with a newline. -/
def mlBangStep (atLS : Bool) (t : List Char) : Option (Bool × List Char × List Char) :=
  match t with
  | '!' :: rest =>
    if atLS then
      let ws := rest.takeWhile pyWs
      some (ws ≠ [] ∧ ws.getLast? = some '\n', "**".data, rest.drop ws.length)
    else none
  | _ => none

/-- `re.sub(r'^\!\s*', '**', ..., flags=re.MULTILINE)`. -/
def mlBangBold (s : List Char) : List Char :=
  (scanSubSt mlBangStep (fun _ c => c = '\n') s.length true s).2

/-- The five lazy cleanups shared by the two fallback tiers of
`convert_wikitable`. -/
def tableLazyClean (content : List Char) : List Char :=
  let t1 := lazySub content
  let t2 := runSub
    (fun t => match t with
      | '|' :: '|' :: rest => some (" | ".data, rest)
      | _ => none) t1
  let t3 := mlPipeStrip t2
  let t4 := runSub rowSepAt t3
  mlBangBold t4

/-- `convert_wikitable` on the captured table content: the two size-tiered
lazy fallbacks (over 50 KB, over 500 lines) and the full structural
parse. -/
def convertWikitable (content : List Char) : List Char :=
  if 50000 < content.length then
    '\n' :: tableLazyClean content ++ ['\n']
  else
    let lines := splitLines content
    if 500 < lines.length then
      '\n' :: tableLazyClean (joinLines (lines.take 500)) ++ "\n... (table continues)\n".data
    else
      let st := lines.foldl tableLine ⟨[], [], []⟩
      let rows := if st.current ≠ [] then st.rows ++ [st.current] else st.rows
      let md := buildTable st.headers rows
      if md ≠ [] then '\n' :: joinLines md ++ ['\n'] else []

/-- Matcher of `re.sub(r'\{\|(.*?)\|\}', convert_wikitable, ..., flags=re.DOTALL)`. -/
def tableAt (s : List Char) : Option (List Char × List Char) :=
  match s with
  | '{' :: '|' :: cs =>
    match findSub "|\x7d".data cs with
    | some (content, rest) => some (convertWikitable content, rest)
    | none => none
  | _ => none

/-- The artifact-line predicate of lines 500–507 of the source: a stripped
line that starts with `'|'`, mentions a span attribute, and has fewer than
10 characters left after deleting `|`, whitespace and `-`. -/
def tableArtifactLine (l : List Char) : Bool :=
  let t := pyStrip l
  isPre "|".data t &&
    (containsSub "scope=".data t || containsSub "rowspan=".data t ||
      containsSub "colspan=".data t) &&
    decide ((t.filter (fun c => !(c == '|' || pyWs c || c == '-'))).length < 10)

/-- The whole table stage (lines 489–508): table conversion, residual
attribute removal, artifact-line filtering. -/
def tableStage (s : List Char) : List Char :=
  let t0 := runSub tableAt s
  let t1 := runSub (attrAt "scope=".data) t0
  let t2 := runSub (attrAt "rowspan=".data) t1
  let t3 := runSub (attrAt "colspan=".data) t2
  joinLines ((splitLines t3).filter (fun l => !tableArtifactLine l))

/-! ## Emphasis conversion (step 7) -/

/-- Matcher of the quote-run emphasis regexes (`'''''(.*?)'''''` etc.,
DOTALL, non-greedy). -/
def emphAt (q : Nat) (stars : List Char) (t : List Char) : Option (List Char × List Char) :=
  if isPre (List.replicate q '\'') t then
    match findSub (List.replicate q '\'') (t.drop q) with
    | some (content, rest) => some (stars ++ content ++ stars, rest)
    | none => none
  else none

/-- Step 7 of the source: bold italic, then bold, then italic. -/
def emphasisStage (s : List Char) : List Char :=
  runSub (emphAt 2 ['*'])
    (runSub (emphAt 3 "**".data)
      (runSub (emphAt 5 "***".data) s))

/-! ## Restoration (step 16) and final cleanup (step 17) -/

/-- Step 16: `for key, value in preserved_blocks.items(): text =
text.replace(key, value)` — dict iteration is insertion order. -/
def restoreBlocks (blocks : List (List Char × List Char)) (s : List Char) : List Char :=
  blocks.foldl (fun acc kv => replaceAll kv.1 kv.2 acc) s

/-- Matcher of `re.sub(r'\n\n\n+', '\n\n', ...)`. -/
def tripleNlAt (t : List Char) : Option (List Char × List Char) :=
  match t with
  | '\n' :: '\n' :: '\n' :: u => some ("\n\n".data, u.dropWhile (fun c => c = '\n'))
  | _ => none

/-- Matcher of `\*\s+\*` → `''`. -/
def starWsStarAt (t : List Char) : Option (List Char × List Char) :=
  match t with
  | '*' :: u =>
    let ws := u.takeWhile pyWs
    if ws = [] then none
    else
      match u.drop ws.length with
      | '*' :: rest => some ([], rest)
      | _ => none
  | _ => none

/-- Matcher of `\*\*\s*\*\*` → `''`. -/
def star2At (t : List Char) : Option (List Char × List Char) :=
  match t with
  | '*' :: '*' :: u =>
    match u.drop (u.takeWhile pyWs).length with
    | '*' :: '*' :: rest => some ([], rest)
    | _ => none
  | _ => none

/-- Matcher of `\*\*\*\s*\*\*\*` → `''`. -/
def star3At (t : List Char) : Option (List Char × List Char) :=
  match t with
  | '*' :: '*' :: '*' :: u =>
    match u.drop (u.takeWhile pyWs).length with
    | '*' :: '*' :: '*' :: rest => some ([], rest)
    | _ => none
  | _ => none

/-- Matcher of `_\s*_` → `''`. -/
def underscoreAt (t : List Char) : Option (List Char × List Char) :=
  match t with
  | '_' :: u =>
    match u.drop (u.takeWhile pyWs).length with
    | '_' :: rest => some ([], rest)
    | _ => none
  | _ => none

/-- Matcher of `\[\]\([^)]*\)` → `''`. -/
def emptyLinkAt (t : List Char) : Option (List Char × List Char) :=
  match t with
  | '[' :: ']' :: '(' :: u =>
    match u.drop (u.takeWhile (fun c => c ≠ ')')).length with
    | ')' :: rest => some ([], rest)
    | _ => none
  | _ => none

/-- Step 17 of the source, in order: blank-line collapse, end trimming
(`^\s+|\s+$`), empty-emphasis removal, empty-link removal. -/
def finalCleanup (s : List Char) : List Char :=
  let t1 := runSub tripleNlAt s
  let t2 := pyStrip t1
  let t3 := runSub starWsStarAt t2
  let t4 := runSub star2At t3
  let t5 := runSub star3At t4
  let t6 := runSub underscoreAt t5
  runSub emptyLinkAt t6

/-! ## Size guard (lines 100–106) and the assembled pipeline model -/

/-- Matcher of `re.sub(r'\{\{[^}]*\}\}', '', ...)` (the size guard deletes
template content instead of keeping it). -/
def braceDeleteAt (t : List Char) : Option (List Char × List Char) :=
  match lazyAt t with
  | some (_, rest) => some ([], rest)
  | none => none

/-- Matcher of `re.sub(r'<[^>]*>', '', ...)`. -/
def htmlTagDeleteAt (t : List Char) : Option (List Char × List Char) :=
  match t with
  | '<' :: u =>
    match u.drop (u.takeWhile (fun c => c ≠ '>')).length with
    | '>' :: rest => some ([], rest)
    | _ => none
  | _ => none

/-- Matcher of `re.sub(r'\[\[[^]]*\]\]', '', ...)`. -/
def linkDeleteAt (t : List Char) : Option (List Char × List Char) :=
  match t with
  | '[' :: '[' :: u =>
    match u.drop (u.takeWhile (fun c => c ≠ ']')).length with
    | ']' :: ']' :: rest => some ([], rest)
    | _ => none
  | _ => none

/-- The oversized-article path (lines 100–106): three single-pass removals
and truncation to 10 000 characters. -/
def sizeGuard (s : List Char) : List Char :=
  (runSub linkDeleteAt (runSub htmlTagDeleteAt (runSub braceDeleteAt s))).take 10000

/-- The trip oracle for the four wall-clock checkpoints of
`wikitext_to_markdown` (`check_timeout` at lines 120, 254, 330 and 510). -/
structure Trips where
  t1 : Bool
  t2 : Bool
  t3 : Bool
  t4 : Bool
deriving DecidableEq, Repr

/-- The no-timeout oracle. -/
def noTrips : Trips := ⟨false, false, false, false⟩

/-- What every tripped checkpoint returns: the lazy template strip of the
current buffer, truncated to 5 000 characters. -/
def timeoutReturn (s : List Char) : List Char := (lazySub s).take 5000

/-- The conversion pipeline model: the stages of `wikitext_to_markdown`
embedded above, composed in source order, with the four timeout
checkpoints driven by the trip oracle.  `html.unescape` (step 1, standard
library) and the inline transform steps 6 and 8–15 are outside the model;
the remaining stages appear exactly in source order. -/
def convertModel (tr : Trips) (s : List Char) : List Char :=
  if s = [] then []
  else if 2000000 < s.length then sizeGuard s
  else if tr.t1 then timeoutReturn s
  else
    let p := preserveStage s
    let s2 := removeComments p.2
    if tr.t2 then timeoutReturn s2
    else
      let s3 := removeComplexTemplates s2
      if tr.t3 then timeoutReturn s3
      else
        let s4 := tableStage s3
        if tr.t4 then timeoutReturn s4
        else finalCleanup (restoreBlocks p.1.blocks (emphasisStage s4))

/-! ## Generic lemmas about the substitution engine -/

theorem isPre_append_self : ∀ (p t : List Char), isPre p (p ++ t) = true := by
  intro p
  induction p with
  | nil => intro t; rfl
  | cons c cs ih => intro t; simp [isPre, ih]

theorem isPreCI_append_self : ∀ (p t : List Char), isPreCI p (p ++ t) = true := by
  intro p
  induction p with
  | nil => intro t; rfl
  | cons c cs ih => intro t; simp [isPreCI, lowEq, ih]

theorem isPre_length : ∀ {p s : List Char}, isPre p s = true → p.length ≤ s.length := by
  intro p
  induction p with
  | nil => intro s _; simp
  | cons c cs ih =>
    intro s h
    cases s with
    | nil => simp [isPre] at h
    | cons d ds =>
      simp only [isPre, Bool.and_eq_true] at h
      simpa using Nat.succ_le_succ (ih h.2)

theorem isPreCI_length : ∀ {p s : List Char}, isPreCI p s = true → p.length ≤ s.length := by
  intro p
  induction p with
  | nil => intro s _; simp
  | cons c cs ih =>
    intro s h
    cases s with
    | nil => simp [isPreCI] at h
    | cons d ds =>
      simp only [isPreCI, Bool.and_eq_true] at h
      simpa using Nat.succ_le_succ (ih h.2)

/-- Head-character test of an exact-prefix match. -/
theorem isPre_head {p : Char} {ps : List Char} {t : List Char}
    (h : isPre (p :: ps) t = true) : t.head? = some p := by
  cases t with
  | nil => simp [isPre] at h
  | cons c cs =>
    simp only [isPre, Bool.and_eq_true, beq_iff_eq] at h
    simp [h.1]

/-- A stateless pass is the identity when the matcher fires at no suffix. -/
theorem scanSub_id (step : List Char → Option (List Char × List Char)) :
    ∀ (fuel : Nat) (s : List Char), (∀ t, t <:+ s → step t = none) →
      scanSub step fuel s = s := by
  intro fuel
  induction fuel with
  | zero => intro s _; rfl
  | succ n ih =>
    intro s h
    cases s with
    | nil => rfl
    | cons c cs =>
      have h0 : step (c :: cs) = none := h (c :: cs) (List.suffix_refl _)
      simp only [scanSub, h0]
      rw [ih cs (fun t ht => h t (ht.trans (List.suffix_cons c cs)))]

/-- A stateless pass is the identity on strings missing a character every
match needs. -/
theorem scanSub_id_of_notMem (step : List Char → Option (List Char × List Char))
    (p : Char) (hneed : ∀ t r, step t = some r → p ∈ t) (fuel : Nat) (s : List Char)
    (hp : p ∉ s) : scanSub step fuel s = s := by
  apply scanSub_id
  intro t ht
  cases hstep : step t with
  | none => rfl
  | some r => exact absurd (ht.subset (hneed t r hstep)) hp

/-- A stateless pass skips a block of characters on which the matcher
cannot start (every match starts with the character `p`). -/
theorem scanSub_skip (step : List Char → Option (List Char × List Char)) (p : Char)
    (hneed : ∀ t r, step t = some r → t.head? = some p) :
    ∀ (a t : List Char) (fuel : Nat), p ∉ a → a.length ≤ fuel →
      scanSub step fuel (a ++ t) = a ++ scanSub step (fuel - a.length) t := by
  intro a
  induction a with
  | nil => intro t fuel _ _; simp
  | cons c a' ih =>
    intro t fuel hp hlen
    cases fuel with
    | zero => simp at hlen
    | succ n =>
      have hc : c ≠ p := fun h => hp (h ▸ List.mem_cons_self c a')
      have hstep : step (c :: (a' ++ t)) = none := by
        cases h : step (c :: (a' ++ t)) with
        | none => rfl
        | some r =>
          have := hneed _ r h
          simp only [List.head?_cons, Option.some.injEq] at this
          exact absurd this hc
      simp only [List.cons_append, scanSub, List.append_eq, hstep]
      rw [ih t n (fun h => hp (List.mem_cons_of_mem c h)) (by simpa using hlen)]
      simp [List.length_cons, Nat.succ_sub_succ]

/-- A stateless pass is the identity on strings missing the character every
match starts with. -/
theorem scanSub_id_of_headNeed (step : List Char → Option (List Char × List Char))
    (p : Char) (hneed : ∀ t r, step t = some r → t.head? = some p) (fuel : Nat)
    (s : List Char) (hp : p ∉ s) : scanSub step fuel s = s := by
  apply scanSub_id_of_notMem step p _ fuel s hp
  intro t r h
  have := hneed t r h
  cases t with
  | nil => simp at this
  | cons c cs =>
    simp only [List.head?_cons, Option.some.injEq] at this
    exact this ▸ List.mem_cons_self c cs

/-- A stateful pass is the identity (on text and state) when the matcher
fires at no position; the state is also untouched when `onChar` keeps it. -/
theorem scanSubSt_id_of_notMem {σ : Type}
    (step : σ → List Char → Option (σ × List Char × List Char))
    (onChar : σ → Char → σ) (honc : ∀ st c, onChar st c = st)
    (p : Char) (hneed : ∀ st t r, step st t = some r → p ∈ t) :
    ∀ (fuel : Nat) (st : σ) (s : List Char), p ∉ s →
      scanSubSt step onChar fuel st s = (st, s) := by
  intro fuel
  induction fuel with
  | zero => intro st s _; rfl
  | succ n ih =>
    intro st s hp
    cases s with
    | nil => rfl
    | cons c cs =>
      have hstep : step st (c :: cs) = none := by
        cases h : step st (c :: cs) with
        | none => rfl
        | some r => exact absurd (hneed st _ r h) hp
      simp only [scanSubSt, hstep, honc]
      rw [ih st cs (fun h => hp (List.mem_cons_of_mem c h))]

/-- A stateful pass skips a block of characters on which the matcher cannot
start (every match starts with the character `p`). -/
theorem scanSubSt_skip {σ : Type}
    (step : σ → List Char → Option (σ × List Char × List Char))
    (onChar : σ → Char → σ) (honc : ∀ st c, onChar st c = st)
    (p : Char) (hneed : ∀ st t r, step st t = some r → t.head? = some p) :
    ∀ (a t : List Char) (fuel : Nat) (st : σ), p ∉ a → a.length ≤ fuel →
      scanSubSt step onChar fuel st (a ++ t) =
        ((scanSubSt step onChar (fuel - a.length) st t).1,
          a ++ (scanSubSt step onChar (fuel - a.length) st t).2) := by
  intro a
  induction a with
  | nil => intro t fuel st _ _; simp
  | cons c a' ih =>
    intro t fuel st hp hlen
    cases fuel with
    | zero => simp at hlen
    | succ n =>
      have hc : c ≠ p := fun h => hp (h ▸ List.mem_cons_self c a')
      have hstep : step st (c :: (a' ++ t)) = none := by
        cases h : step st (c :: (a' ++ t)) with
        | none => rfl
        | some r =>
          have := hneed st _ r h
          simp only [List.head?_cons, Option.some.injEq] at this
          exact absurd this hc
      simp only [List.cons_append, scanSubSt, List.append_eq, hstep, honc]
      rw [ih t n st (fun h => hp (List.mem_cons_of_mem c h)) (by simpa using hlen)]
      simp [List.length_cons, Nat.succ_sub_succ]

/-- A stateful pass is the identity when every match starts with a missing
character. -/
theorem scanSubSt_id_of_headNeed {σ : Type}
    (step : σ → List Char → Option (σ × List Char × List Char))
    (onChar : σ → Char → σ) (honc : ∀ st c, onChar st c = st)
    (p : Char) (hneed : ∀ st t r, step st t = some r → t.head? = some p)
    (fuel : Nat) (st : σ) (s : List Char) (hp : p ∉ s) :
    scanSubSt step onChar fuel st s = (st, s) := by
  apply scanSubSt_id_of_notMem step onChar honc p _ fuel st s hp
  intro st' t r h
  have := hneed st' t r h
  cases t with
  | nil => simp at this
  | cons c cs =>
    simp only [List.head?_cons, Option.some.injEq] at this
    exact this ▸ List.mem_cons_self c cs

/-- `pyStrip` is the identity when both ends are not whitespace. -/
theorem pyStrip_eq_self {s : List Char}
    (h1 : ∀ c, s.head? = some c → pyWs c = false)
    (h2 : ∀ c, s.getLast? = some c → pyWs c = false) : pyStrip s = s := by
  unfold pyStrip
  have hdrop : s.dropWhile pyWs = s := by
    cases s with
    | nil => rfl
    | cons c cs => rw [List.dropWhile_cons_of_neg (by simp [h1 c rfl])]
  rw [hdrop]
  have hdrop2 : s.reverse.dropWhile pyWs = s.reverse := by
    cases hs : s.reverse with
    | nil => rfl
    | cons c cs =>
      rw [List.dropWhile_cons_of_neg]
      simp only [Bool.not_eq_true]
      apply h2
      rw [← List.head?_reverse, hs]
      rfl
  rw [hdrop2, List.reverse_reverse]

/-- `pyStrip` is the identity on whitespace-free strings. -/
theorem pyStrip_eq_self_of_forall {s : List Char}
    (h : ∀ c ∈ s, pyWs c = false) : pyStrip s = s := by
  apply pyStrip_eq_self
  · intro c hc
    cases s with
    | nil => simp at hc
    | cons d ds =>
      simp only [List.head?_cons, Option.some.injEq] at hc
      exact h c (by rw [← hc]; exact List.mem_cons_self d ds)
  · intro c hc
    exact h c (List.mem_of_mem_getLast? hc)

theorem splitLines_ne_nil : ∀ s : List Char, splitLines s ≠ [] := by
  intro s
  cases s with
  | nil => simp [splitLines]
  | cons c cs =>
    simp only [splitLines]
    split
    · simp
    · cases h : splitLines cs <;> simp

theorem joinLines_cons_cons (c : Char) (l : List Char) (ls : List (List Char)) :
    joinLines ((c :: l) :: ls) = c :: joinLines (l :: ls) := by
  cases ls <;> rfl

/-- `splitLines` and `joinLines` are inverse. -/
theorem joinLines_splitLines : ∀ s : List Char, joinLines (splitLines s) = s := by
  intro s
  induction s with
  | nil => rfl
  | cons c cs ih =>
    by_cases hc : c = '\n'
    · subst hc
      simp only [splitLines, if_pos rfl]
      rcases h : splitLines cs with _ | ⟨l, ls⟩
      · exact absurd h (splitLines_ne_nil cs)
      · show joinLines ([] :: l :: ls) = '\n' :: cs
        have : joinLines ([] :: l :: ls) = '\n' :: joinLines (l :: ls) := rfl
        rw [this, ← h, ih]
    · simp only [splitLines, if_neg hc]
      rcases h : splitLines cs with _ | ⟨l, ls⟩
      · exact absurd h (splitLines_ne_nil cs)
      · rw [joinLines_cons_cons, ← h, ih]

/-! ### Which character each matcher needs at its start -/

theorem exactTagAt_head {o cl t : List Char} {r} (h : exactTagAt o cl t = some r) :
    t.head? = some '<' := by
  unfold exactTagAt at h
  split at h
  · rfl
  · exact absurd h (by simp)

theorem tagAt_head {n t : List Char} {r} (h : tagAt n t = some r) :
    t.head? = some '<' := by
  unfold tagAt at h
  split at h
  · rfl
  · exact absurd h (by simp)

theorem mathChemAt_head {t : List Char} {r} (h : mathChemAt t = some r) :
    t.head? = some '<' := by
  unfold mathChemAt at h
  split at h
  · rfl
  · exact absurd h (by simp)

theorem codeLangAt_head {t : List Char} {r} (h : codeLangAt t = some r) :
    t.head? = some '<' := by
  unfold codeLangAt at h
  split at h
  · rfl
  · exact absurd h (by simp)

theorem nowikiSelfAt_head {t : List Char} {r} (h : nowikiSelfAt t = some r) :
    t.head? = some '<' := by
  unfold nowikiSelfAt at h
  split at h
  · rfl
  · exact absurd h (by simp)

theorem commentAt_head {t : List Char} {r} (h : commentAt t = some r) :
    t.head? = some '<' := by
  unfold commentAt at h
  split at h
  · rfl
  · exact absurd h (by simp)

theorem codeAt_head {t : List Char} {r} (h : codeAt t = some r) :
    t.head? = some '<' := by
  unfold codeAt at h
  split at h
  · next heq => exact tagAt_head heq
  · exact absurd h (by simp)

theorem citeAt_head {t : List Char} {r} (h : citeAt t = some r) :
    t.head? = some '{' := by
  unfold citeAt at h
  split at h
  · rfl
  · exact absurd h (by simp)

theorem pipeCapAt_head {kw t : List Char} {r} (h : pipeCapAt kw t = some r) :
    t.head? = some '{' := by
  unfold pipeCapAt at h
  split at h
  · rfl
  · exact absurd h (by simp)

theorem quoteAt_head {t : List Char} {r} (h : quoteAt t = some r) :
    t.head? = some '{' := by
  unfold quoteAt at h
  split at h
  · next heq => exact pipeCapAt_head heq
  · exact absurd h (by simp)

theorem mainAt_head {t : List Char} {r} (h : mainAt t = some r) :
    t.head? = some '{' := by
  unfold mainAt at h
  split at h
  · next heq => exact pipeCapAt_head heq
  · exact absurd h (by simp)

theorem lazyAt_head {t : List Char} {r} (h : lazyAt t = some r) :
    t.head? = some '{' := by
  unfold lazyAt at h
  split at h
  · rfl
  · exact absurd h (by simp)

theorem tableAt_head {t : List Char} {r} (h : tableAt t = some r) :
    t.head? = some '{' := by
  unfold tableAt at h
  split at h
  · rfl
  · exact absurd h (by simp)

theorem emphAt_head {q : Nat} (hq : 0 < q) {stars t : List Char} {r}
    (h : emphAt q stars t = some r) : t.head? = some '\'' := by
  unfold emphAt at h
  split at h
  · next hpre =>
    cases q with
    | zero => omega
    | succ n =>
      rw [List.replicate_succ] at hpre
      exact isPre_head hpre
  · exact absurd h (by simp)

theorem tripleNlAt_head {t : List Char} {r} (h : tripleNlAt t = some r) :
    t.head? = some '\n' := by
  unfold tripleNlAt at h
  split at h
  · rfl
  · exact absurd h (by simp)

theorem starWsStarAt_head {t : List Char} {r} (h : starWsStarAt t = some r) :
    t.head? = some '*' := by
  unfold starWsStarAt at h
  split at h
  · rfl
  · exact absurd h (by simp)

theorem star2At_head {t : List Char} {r} (h : star2At t = some r) :
    t.head? = some '*' := by
  unfold star2At at h
  split at h
  · rfl
  · exact absurd h (by simp)

theorem star3At_head {t : List Char} {r} (h : star3At t = some r) :
    t.head? = some '*' := by
  unfold star3At at h
  split at h
  · rfl
  · exact absurd h (by simp)

theorem underscoreAt_head {t : List Char} {r} (h : underscoreAt t = some r) :
    t.head? = some '_' := by
  unfold underscoreAt at h
  split at h
  · rfl
  · exact absurd h (by simp)

theorem emptyLinkAt_head {t : List Char} {r} (h : emptyLinkAt t = some r) :
    t.head? = some '[' := by
  unfold emptyLinkAt at h
  split at h
  · rfl
  · exact absurd h (by simp)

theorem htmlTagDeleteAt_head {t : List Char} {r} (h : htmlTagDeleteAt t = some r) :
    t.head? = some '<' := by
  unfold htmlTagDeleteAt at h
  split at h
  · rfl
  · exact absurd h (by simp)

theorem linkDeleteAt_head {t : List Char} {r} (h : linkDeleteAt t = some r) :
    t.head? = some '[' := by
  unfold linkDeleteAt at h
  split at h
  · rfl
  · exact absurd h (by simp)

theorem braceDeleteAt_head {t : List Char} {r} (h : braceDeleteAt t = some r) :
    t.head? = some '{' := by
  unfold braceDeleteAt at h
  split at h
  · next heq => exact lazyAt_head heq
  · exact absurd h (by simp)

theorem attrAt_mem {kw t : List Char} {r} (h : attrAt kw t = some r) : '"' ∈ t := by
  unfold attrAt at h
  split at h
  · split at h
    · next heq =>
      exact List.mem_of_mem_drop (heq ▸ List.mem_cons_self '"' _)
    · exact absurd h (by simp)
  · exact absurd h (by simp)

theorem nowikiStep_head {st : PresState} {t : List Char} {r}
    (h : nowikiStep st t = some r) : t.head? = some '<' := by
  unfold nowikiStep at h
  split at h
  · next heq => exact exactTagAt_head heq
  · exact absurd h (by simp)

theorem mathStep_head {st : PresState} {t : List Char} {r}
    (h : mathStep st t = some r) : t.head? = some '<' := by
  unfold mathStep at h
  split at h
  · next heq => exact tagAt_head heq
  · exact absurd h (by simp)

theorem mathChemStep_head {st : PresState} {t : List Char} {r}
    (h : mathChemStep st t = some r) : t.head? = some '<' := by
  unfold mathChemStep at h
  split at h
  · next heq => exact mathChemAt_head heq
  · exact absurd h (by simp)

theorem chemStep_head {n : List Char} {st : PresState} {t : List Char} {r}
    (h : chemStep n st t = some r) : t.head? = some '<' := by
  unfold chemStep at h
  split at h
  · next heq => exact tagAt_head heq
  · exact absurd h (by simp)

theorem preStep_head {st : PresState} {t : List Char} {r}
    (h : preStep st t = some r) : t.head? = some '<' := by
  unfold preStep at h
  split at h
  · next heq => exact tagAt_head heq
  · exact absurd h (by simp)

theorem synStep_head {n : List Char} {st : PresState} {t : List Char} {r}
    (h : synStep n st t = some r) : t.head? = some '<' := by
  unfold synStep at h
  split at h
  · next heq => exact tagAt_head heq
  · exact absurd h (by simp)

/-- Characters of a line of `splitLines` are characters of the string. -/
theorem mem_of_mem_splitLines : ∀ (s l : List Char), l ∈ splitLines s →
    ∀ c ∈ l, c ∈ s := by
  intro s
  induction s with
  | nil =>
    intro l hl c hc
    simp only [splitLines, List.mem_singleton] at hl
    subst hl
    simp at hc
  | cons d ds ih =>
    intro l hl c hc
    simp only [splitLines] at hl
    by_cases hd : d = '\n'
    · rw [if_pos hd] at hl
      rcases List.mem_cons.mp hl with rfl | hl
      · simp at hc
      · exact List.mem_cons_of_mem _ (ih l hl c hc)
    · rw [if_neg hd] at hl
      rcases h : splitLines ds with _ | ⟨l0, ls⟩
      · exact absurd h (splitLines_ne_nil ds)
      · rw [h] at hl
        rcases List.mem_cons.mp hl with rfl | hl
        · rcases List.mem_cons.mp hc with rfl | hc'
          · exact List.mem_cons_self _ _
          · exact List.mem_cons_of_mem _
              (ih l0 (by rw [h]; exact List.mem_cons_self _ _) c hc')
        · exact List.mem_cons_of_mem _
            (ih l (by rw [h]; exact List.mem_cons_of_mem _ hl) c hc)

/-! ### Stage identity lemmas -/

theorem runSub_id (step : List Char → Option (List Char × List Char)) (p : Char)
    (hneed : ∀ t r, step t = some r → t.head? = some p)
    {s : List Char} (hp : p ∉ s) : runSub step s = s :=
  scanSub_id_of_headNeed step p hneed s.length s hp

theorem runSub_id_mem (step : List Char → Option (List Char × List Char)) (p : Char)
    (hneed : ∀ t r, step t = some r → p ∈ t)
    {s : List Char} (hp : p ∉ s) : runSub step s = s :=
  scanSub_id_of_notMem step p hneed s.length s hp

theorem runMint_id (step : PresState → List Char → Option (PresState × List Char × List Char))
    (p : Char) (hneed : ∀ st t r, step st t = some r → t.head? = some p)
    {st : PresState} {s : List Char} (hp : p ∉ s) : runMint step st s = (st, s) :=
  scanSubSt_id_of_headNeed step keepSt (fun _ _ => rfl) p hneed s.length st s hp

/-- The whole preservation stage leaves a `'<'`-free buffer untouched and
mints nothing. -/
theorem preserveStage_id {s : List Char} (h : '<' ∉ s) :
    preserveStage s = (⟨[], 0⟩, s) := by
  unfold preserveStage
  simp [runMint_id nowikiStep '<' (fun _ _ _ hh => nowikiStep_head hh) h,
    runSub_id nowikiSelfAt '<' (fun _ _ hh => nowikiSelfAt_head hh) h,
    runMint_id mathStep '<' (fun _ _ _ hh => mathStep_head hh) h,
    runMint_id mathChemStep '<' (fun _ _ _ hh => mathChemStep_head hh) h,
    runMint_id (chemStep "chem".data) '<' (fun _ _ _ hh => chemStep_head hh) h,
    runMint_id (chemStep "ce".data) '<' (fun _ _ _ hh => chemStep_head hh) h,
    runMint_id preStep '<' (fun _ _ _ hh => preStep_head hh) h,
    runSub_id codeAt '<' (fun _ _ hh => codeAt_head hh) h,
    runMint_id (synStep "syntaxhighlight".data) '<' (fun _ _ _ hh => synStep_head hh) h,
    runMint_id (synStep "source".data) '<' (fun _ _ _ hh => synStep_head hh) h,
    runSub_id codeLangAt '<' (fun _ _ hh => codeLangAt_head hh) h]

theorem removeComments_id {s : List Char} (h : '<' ∉ s) : removeComments s = s :=
  runSub_id commentAt '<' (fun _ _ hh => commentAt_head hh) h

theorem lazySub_id {s : List Char} (h : '{' ∉ s) : lazySub s = s :=
  runSub_id lazyAt '{' (fun _ _ hh => lazyAt_head hh) h

/-- The balanced-brace loop on brace-free text copies everything, one
iteration per character. -/
theorem braceLoop_plain : ∀ (rest : List Char) (fuel maxIter count : Nat),
    (∀ c ∈ rest, c ≠ '{' ∧ c ≠ '}') → count + rest.length ≤ maxIter →
    rest.length ≤ fuel →
    braceLoop maxIter fuel rest 0 count = (rest, count + rest.length, []) := by
  intro rest
  induction rest with
  | nil =>
    intro fuel maxIter count _ _ _
    cases fuel <;> simp [braceLoop]
  | cons c rs ih =>
    intro fuel maxIter count hfree hbud hfuel
    cases fuel with
    | zero => simp at hfuel
    | succ n =>
      have hc := hfree c (List.mem_cons_self c rs)
      have hbudlt : ¬ maxIter ≤ count := by
        simp only [List.length_cons] at hbud
        omega
      rw [braceLoop, if_neg hbudlt]
      have h1 : ¬(c = '{' ∧ rs.head? = some '{') := fun hx => hc.1 hx.1
      have h2 : ¬(c = '}' ∧ rs.head? = some '}') := fun hx => hc.2 hx.1
      rw [if_neg h1, if_neg h2]
      rw [ih n maxIter (count + 1)
        (fun d hd => hfree d (List.mem_cons_of_mem c hd))
        (by simp only [List.length_cons] at hbud ⊢; omega)
        (by simpa using hfuel)]
      simp only [if_pos rfl, if_true, List.length_cons, Prod.mk.injEq, true_and,
        and_true]
      omega

/-- The generic balanced-brace removal is the identity on brace-free
text. -/
theorem genericBraceRemoval_id {s : List Char}
    (h : ∀ c ∈ s, c ≠ '{' ∧ c ≠ '}') : genericBraceRemoval s = s := by
  cases hs : s with
  | nil => rfl
  | cons c cs =>
    unfold genericBraceRemoval braceScanOut
    rw [braceLoop_plain (c :: cs) (c :: cs).length (2 * (c :: cs).length) 0
      (hs ▸ h) (by omega) (le_refl _)]
    have : ¬ 2 * (c :: cs).length ≤ 0 + (c :: cs).length := by
      simp only [List.length_cons]
      omega
    simp only [this, if_false, if_neg this]

theorem removeComplexTemplates_id {s : List Char} (h1 : '{' ∉ s) (h2 : '}' ∉ s) :
    removeComplexTemplates s = s := by
  unfold removeComplexTemplates
  split
  · exact lazySub_id h1
  · rw [runSub_id citeAt '{' (fun _ _ hh => citeAt_head hh) h1,
      runSub_id quoteAt '{' (fun _ _ hh => quoteAt_head hh) h1,
      runSub_id mainAt '{' (fun _ _ hh => mainAt_head hh) h1]
    exact genericBraceRemoval_id (fun c hc => ⟨fun e => h1 (e ▸ hc), fun e => h2 (e ▸ hc)⟩)

theorem mem_of_mem_pyStrip {c : Char} {l : List Char} (h : c ∈ pyStrip l) : c ∈ l := by
  unfold pyStrip at h
  have h1 := List.mem_reverse.mp h
  have h2 := (List.dropWhile_suffix pyWs).subset h1
  have h3 := List.mem_reverse.mp h2
  exact (List.dropWhile_suffix pyWs).subset h3

theorem tableArtifactLine_false {l : List Char} (h : '|' ∉ l) :
    tableArtifactLine l = false := by
  unfold tableArtifactLine
  have hpre : isPre "|".data (pyStrip l) = false := by
    cases hp : isPre "|".data (pyStrip l)
    · rfl
    · exfalso
      have hd := @isPre_head '|' [] (pyStrip l) hp
      have : '|' ∈ pyStrip l := by
        cases hps : pyStrip l with
        | nil => rw [hps] at hd; simp at hd
        | cons x xs =>
          rw [hps] at hd
          simp only [List.head?_cons, Option.some.injEq] at hd
          exact hd ▸ List.mem_cons_self x xs
      exact h (mem_of_mem_pyStrip this)
  simp [hpre]

theorem tableStage_id {s : List Char} (hb : '{' ∉ s) (hq : '"' ∉ s)
    (hp : '|' ∉ s) : tableStage s = s := by
  unfold tableStage
  simp only [runSub_id tableAt '{' (fun _ _ hh => tableAt_head hh) hb,
    runSub_id_mem (attrAt "scope=".data) '"' (fun _ _ hh => attrAt_mem hh) hq,
    runSub_id_mem (attrAt "rowspan=".data) '"' (fun _ _ hh => attrAt_mem hh) hq,
    runSub_id_mem (attrAt "colspan=".data) '"' (fun _ _ hh => attrAt_mem hh) hq]
  have hfil : (splitLines s).filter (fun l => !tableArtifactLine l) = splitLines s := by
    apply List.filter_eq_self.mpr
    intro l hl
    have hl' : '|' ∉ l := fun hc => hp (mem_of_mem_splitLines s l hl '|' hc)
    simp [tableArtifactLine_false hl']
  rw [hfil, joinLines_splitLines]

theorem emphasisStage_id {s : List Char} (h : '\'' ∉ s) : emphasisStage s = s := by
  unfold emphasisStage
  rw [runSub_id (emphAt 5 "***".data) '\'' (fun _ _ hh => emphAt_head (by omega) hh) h,
    runSub_id (emphAt 3 "**".data) '\'' (fun _ _ hh => emphAt_head (by omega) hh) h,
    runSub_id (emphAt 2 ['*']) '\'' (fun _ _ hh => emphAt_head (by omega) hh) h]

theorem finalCleanup_id {s : List Char} (hn : '\n' ∉ s) (hst : '*' ∉ s)
    (hu : '_' ∉ s) (hbr : '[' ∉ s)
    (hh : ∀ c, s.head? = some c → pyWs c = false)
    (hl : ∀ c, s.getLast? = some c → pyWs c = false) :
    finalCleanup s = s := by
  unfold finalCleanup
  simp only [runSub_id tripleNlAt '\n' (fun _ _ hh' => tripleNlAt_head hh') hn,
    pyStrip_eq_self hh hl,
    runSub_id starWsStarAt '*' (fun _ _ hh' => starWsStarAt_head hh') hst,
    runSub_id star2At '*' (fun _ _ hh' => star2At_head hh') hst,
    runSub_id star3At '*' (fun _ _ hh' => star3At_head hh') hst,
    runSub_id underscoreAt '_' (fun _ _ hh' => underscoreAt_head hh') hu,
    runSub_id emptyLinkAt '[' (fun _ _ hh' => emptyLinkAt_head hh') hbr]

/-! ### Identity of the whole model on plain text -/

/-- Alphanumeric characters: untouched by every stage of the model. -/
def plainChar (c : Char) : Bool := c.isAlpha || c.isDigit

theorem notMem_of_plain {x : Char} {s : List Char} (hx : plainChar x = false)
    (h : ∀ c ∈ s, plainChar c = true) : x ∉ s := fun hm => by
  have := h x hm
  simp [hx] at this

theorem pyWs_of_plain {c : Char} (h : plainChar c = true) : pyWs c = false := by
  cases hw : pyWs c
  · rfl
  · exfalso
    unfold pyWs at hw
    simp only [Bool.or_eq_true, beq_iff_eq] at hw
    rcases hw with ((((rfl | rfl) | rfl) | rfl) | rfl) | rfl <;>
      exact absurd h (by decide)

/-- The conversion model is the identity on non-empty plain alphanumeric
text below the size ceiling. -/
theorem convertModel_plain {s : List Char} (hne : s ≠ [])
    (hlen : s.length ≤ 2000000) (h : ∀ c ∈ s, plainChar c = true) :
    convertModel noTrips s = s := by
  have hlt : '<' ∉ s := notMem_of_plain (by decide) h
  have hob : '{' ∉ s := notMem_of_plain (by decide) h
  have hcb : '}' ∉ s := notMem_of_plain (by decide) h
  have hpi : '|' ∉ s := notMem_of_plain (by decide) h
  have hap : '\'' ∉ s := notMem_of_plain (by decide) h
  have hdq : '"' ∉ s := notMem_of_plain (by decide) h
  have hst : '*' ∉ s := notMem_of_plain (by decide) h
  have hun : '_' ∉ s := notMem_of_plain (by decide) h
  have hbr : '[' ∉ s := notMem_of_plain (by decide) h
  have hnl : '\n' ∉ s := notMem_of_plain (by decide) h
  unfold convertModel
  rw [if_neg hne, if_neg (by omega : ¬ 2000000 < s.length)]
  show (if noTrips.t1 = true then _ else _) = s
  rw [if_neg (by simp [noTrips])]
  rw [preserveStage_id hlt]
  show (if noTrips.t2 = true then _ else _) = s
  rw [if_neg (by simp [noTrips])]
  rw [removeComments_id hlt, removeComplexTemplates_id hob hcb]
  show (if noTrips.t3 = true then _ else _) = s
  rw [if_neg (by simp [noTrips])]
  rw [tableStage_id hob hdq hpi]
  show (if noTrips.t4 = true then _ else _) = s
  rw [if_neg (by simp [noTrips])]
  show finalCleanup (restoreBlocks [] (emphasisStage s)) = s
  rw [emphasisStage_id hap]
  show finalCleanup s = s
  exact finalCleanup_id hnl hst hun hbr
    (fun c hc => pyWs_of_plain (h c (by
      cases s with
      | nil => simp at hc
      | cons d ds =>
        simp only [List.head?_cons, Option.some.injEq] at hc
        exact hc ▸ List.mem_cons_self d ds)))
    (fun c hc => pyWs_of_plain (h c (List.mem_of_mem_getLast? hc)))

/-! ### The iteration counter of the balanced-brace scan (C10) -/

/-- The iteration counter grows by at most one per consumed character. -/
theorem braceLoop_count_le : ∀ (fuel : Nat) (rest : List Char) (maxIter depth count : Nat),
    (braceLoop maxIter fuel rest depth count).2.1 ≤ count + rest.length := by
  intro fuel
  induction fuel with
  | zero => intro rest maxIter depth count; simp [braceLoop]
  | succ n ih =>
    intro rest maxIter depth count
    match rest with
    | [] => simp [braceLoop]
    | c :: rs =>
      have htail : rs.tail.length ≤ rs.length := by
        cases rs <;> simp [List.length_tail]
      rw [braceLoop]
      simp only [List.length_cons]
      split
      · simp
      · split
        · split
          · exact le_trans (ih rs.tail maxIter depth (count + 1)) (by omega)
          · exact le_trans (ih rs.tail maxIter (depth + 1) (count + 1)) (by omega)
        · split
          · exact le_trans (ih rs.tail maxIter (depth - 1) (count + 1)) (by omega)
          · have hr := ih rs maxIter depth (count + 1)
            split
            · simpa using le_trans hr (by omega)
            · exact le_trans hr (by omega)

/-! ### Well-formed template markup and the scan's exactness (C3) -/

/-- Well-formed template bodies at nesting depth `d`: braces occur only as
the digraphs of properly nested complete templates, and no template opens
beyond depth 50. -/
inductive Nest : Nat → List Char → Prop
  | nil (d : Nat) : Nest d []
  | chr {d : Nat} {c : Char} {b : List Char} : c ≠ '{' → c ≠ '}' → Nest d b →
      Nest d (c :: b)
  | tmpl {d : Nat} {b1 b2 : List Char} : d + 1 ≤ 50 → Nest (d + 1) b1 → Nest d b2 →
      Nest d ('{' :: '{' :: (b1 ++ '}' :: '}' :: b2))

/-- Well-formed documents: an interleaving of non-brace characters and
outermost template spans with balanced depth-bounded bodies; `out` is the
subsequence outside the spans. -/
inductive Chunks : List Char → List Char → Prop
  | nil : Chunks [] []
  | chr {c : Char} {s out : List Char} : c ≠ '{' → c ≠ '}' → Chunks s out →
      Chunks (c :: s) (c :: out)
  | span {b s out : List Char} : Nest 1 b → Chunks s out →
      Chunks ('{' :: '{' :: (b ++ '}' :: '}' :: s)) out

theorem chunks_out_free {s out : List Char} (h : Chunks s out) :
    ∀ c ∈ out, c ≠ '{' ∧ c ≠ '}' := by
  induction h with
  | nil => intro c hc; simp at hc
  | chr h1 h2 _ ih =>
    intro c hc
    rcases List.mem_cons.mp hc with rfl | hc
    · exact ⟨h1, h2⟩
    · exact ih c hc
  | span _ _ ih => exact ih

/-- Scanning a well-formed body at depth `d ≥ 1` up to and including its
closing `}}` emits nothing, pops one level, and consumes one fuel/count
unit per scan step. -/
theorem braceLoop_nest {d : Nat} {b : List Char} (hnest : Nest d b) :
    1 ≤ d → d ≤ 50 →
    ∀ (rest : List Char) (maxIter fuel count : Nat),
      count + (b.length + 2 + rest.length) ≤ maxIter →
      b.length + 2 + rest.length ≤ fuel →
      ∃ k, k ≤ b.length + 1 ∧ k ≤ fuel ∧
        braceLoop maxIter fuel (b ++ '}' :: '}' :: rest) d count =
          braceLoop maxIter (fuel - k) rest (d - 1) (count + k) := by
  induction hnest with
  | nil d =>
    intro hd1 _ rest maxIter fuel count hbud hfuel
    refine ⟨1, by omega, by omega, ?_⟩
    cases fuel with
    | zero => omega
    | succ n =>
      rw [List.nil_append, braceLoop]
      rw [if_neg (by simp only [List.length_nil] at hbud; omega : ¬ maxIter ≤ count)]
      simp
  | @chr d c b hc1 hc2 _ ih =>
    intro hd1 hd50 rest maxIter fuel count hbud hfuel
    cases fuel with
    | zero => simp only [List.length_cons] at hfuel; omega
    | succ n =>
      obtain ⟨k, hk, hkf, heq⟩ := ih hd1 hd50 rest maxIter n (count + 1)
        (by simp only [List.length_cons] at hbud; omega)
        (by simp only [List.length_cons] at hfuel; omega)
      refine ⟨k + 1, by simp only [List.length_cons]; omega, by omega, ?_⟩
      rw [List.cons_append, braceLoop]
      rw [if_neg (by simp only [List.length_cons] at hbud; omega : ¬ maxIter ≤ count)]
      rw [if_neg (fun hx => hc1 hx.1), if_neg (fun hx => hc2 hx.1)]
      simp only [if_neg (by omega : ¬ d = 0)]
      rw [heq]
      have e1 : n + 1 - (k + 1) = n - k := by omega
      have e2 : count + (k + 1) = count + 1 + k := by omega
      rw [e1, e2]
  | @tmpl d b1 b2 hle hb1 hb2 ih1 ih2 =>
    intro hd1 hd50 rest maxIter fuel count hbud hfuel
    have hlen : ('{' :: '{' :: (b1 ++ '}' :: '}' :: b2)).length =
        b1.length + b2.length + 4 := by
      simp only [List.length_cons, List.length_append]
      omega
    cases fuel with
    | zero => rw [hlen] at hfuel; omega
    | succ n =>
      have harr : ('{' :: '{' :: (b1 ++ '}' :: '}' :: b2)) ++ '}' :: '}' :: rest =
          '{' :: '{' :: (b1 ++ '}' :: '}' :: (b2 ++ '}' :: '}' :: rest)) := by
        simp [List.append_assoc]
      rw [harr]
      have hlen2 : (b2 ++ '}' :: '}' :: rest).length = b2.length + 2 + rest.length := by
        simp only [List.length_append, List.length_cons]
        omega
      obtain ⟨k1, hk1, hk1f, heq1⟩ := ih1 (by omega) (by omega)
        (b2 ++ '}' :: '}' :: rest) maxIter n (count + 1)
        (by rw [hlen] at hbud; rw [hlen2]; omega)
        (by rw [hlen] at hfuel; rw [hlen2]; omega)
      rw [show d + 1 - 1 = d from by omega] at heq1
      obtain ⟨k2, hk2, hk2f, heq2⟩ := ih2 hd1 hd50 rest maxIter (n - k1)
        (count + 1 + k1)
        (by rw [hlen] at hbud; omega)
        (by rw [hlen] at hfuel; omega)
      refine ⟨1 + k1 + k2, by rw [hlen]; omega, by omega, ?_⟩
      rw [braceLoop]
      rw [if_neg (by rw [hlen] at hbud; omega : ¬ maxIter ≤ count)]
      rw [if_pos (by simp : ('{' : Char) = '{' ∧
        (('{' :: (b1 ++ '}' :: '}' :: (b2 ++ '}' :: '}' :: rest))).head? = some '{'))]
      rw [if_neg (by omega : ¬ 50 ≤ d)]
      simp only [List.tail_cons]
      rw [heq1, heq2]
      have e1 : n - k1 - k2 = n + 1 - (1 + k1 + k2) := by omega
      have e2 : count + 1 + k1 + k2 = count + (1 + k1 + k2) := by omega
      rw [e1, e2]

/-- Scanning a well-formed document emits exactly the outside characters,
in at most one iteration per character, and consumes the whole input. -/
theorem braceLoop_chunks {s out : List Char} (h : Chunks s out) :
    ∀ (maxIter fuel count : Nat), count + s.length ≤ maxIter → s.length ≤ fuel →
      ∃ k, k ≤ s.length ∧
        braceLoop maxIter fuel s 0 count = (out, count + k, []) := by
  induction h with
  | nil =>
    intro maxIter fuel count _ _
    exact ⟨0, by omega, by cases fuel <;> simp [braceLoop]⟩
  | @chr c s' out' hc1 hc2 _ ih =>
    intro maxIter fuel count hbud hfuel
    cases fuel with
    | zero => simp only [List.length_cons] at hfuel; omega
    | succ n =>
      obtain ⟨k, hk, heq⟩ := ih maxIter n (count + 1)
        (by simp only [List.length_cons] at hbud; omega)
        (by simp only [List.length_cons] at hfuel; omega)
      refine ⟨k + 1, by simp only [List.length_cons]; omega, ?_⟩
      rw [braceLoop]
      rw [if_neg (by simp only [List.length_cons] at hbud; omega : ¬ maxIter ≤ count)]
      rw [if_neg (fun hx => hc1 hx.1), if_neg (fun hx => hc2 hx.1)]
      simp only [if_pos rfl, if_true]
      rw [heq]
      simp only [Prod.mk.injEq, true_and, and_true]
      omega
  | @span b s' out' hb _ ih =>
    intro maxIter fuel count hbud hfuel
    have hlen : ('{' :: '{' :: (b ++ '}' :: '}' :: s')).length =
        b.length + s'.length + 4 := by
      simp only [List.length_cons, List.length_append]
      omega
    cases fuel with
    | zero => rw [hlen] at hfuel; omega
    | succ n =>
      obtain ⟨k1, hk1, hk1f, heq1⟩ := braceLoop_nest hb (by omega) (by omega)
        s' maxIter n (count + 1)
        (by rw [hlen] at hbud; omega)
        (by rw [hlen] at hfuel; omega)
      rw [show (1 : Nat) - 1 = 0 from rfl] at heq1
      obtain ⟨k2, hk2, heq2⟩ := ih maxIter (n - k1) (count + 1 + k1)
        (by rw [hlen] at hbud; omega)
        (by rw [hlen] at hfuel; omega)
      refine ⟨1 + k1 + k2, by rw [hlen]; omega, ?_⟩
      rw [braceLoop]
      rw [if_neg (by rw [hlen] at hbud; omega : ¬ maxIter ≤ count)]
      rw [if_pos (by simp : ('{' : Char) = '{' ∧
        (('{' :: (b ++ '}' :: '}' :: s')).head? = some '{'))]
      rw [if_neg (by omega : ¬ (50 : Nat) ≤ 0)]
      simp only [List.tail_cons, Nat.zero_add]
      rw [heq1, heq2]
      simp only [Prod.mk.injEq, true_and, and_true]
      omega

/-- On a well-formed document the generic balanced-brace removal returns
exactly the outside characters. -/
theorem genericBraceRemoval_chunks {s out : List Char} (h : Chunks s out) :
    genericBraceRemoval s = out := by
  cases h with
  | nil => rfl
  | @chr c s' out' hc1 hc2 htl =>
    obtain ⟨k, hk, heq⟩ := braceLoop_chunks (Chunks.chr hc1 hc2 htl)
      (2 * (c :: s').length) (c :: s').length 0 (by omega) (le_refl _)
    unfold genericBraceRemoval braceScanOut
    rw [heq]
    have hlt : ¬ 2 * (c :: s').length ≤ 0 + k := by
      simp only [List.length_cons] at hk ⊢
      omega
    simp only [hlt, if_false, if_neg hlt]
  | @span b s' out' hb htl =>
    obtain ⟨k, hk, heq⟩ := braceLoop_chunks (Chunks.span hb htl)
      (2 * ('{' :: '{' :: (b ++ '}' :: '}' :: s')).length)
      ('{' :: '{' :: (b ++ '}' :: '}' :: s')).length 0 (by omega) (le_refl _)
    unfold genericBraceRemoval braceScanOut
    rw [heq]
    have hlt : ¬ 2 * ('{' :: '{' :: (b ++ '}' :: '}' :: s')).length ≤ 0 + k := by
      simp only [List.length_cons] at hk ⊢
      omega
    simp only [hlt, if_false, if_neg hlt]

/-! ## Numeric HTML-entity decoding (step 13, lines 680–681)

`text = re.sub(r'&#(\d+);', lambda m: chr(int(m.group(1))), text)` and
`text = re.sub(r'&#x([0-9a-fA-F]+);', lambda m: chr(int(m.group(1), 16)), text)`.

Python's `chr` raises `ValueError` for codepoints outside
`range(0x110000)`, and the exception propagates out of `re.sub` and out of
`wikitext_to_markdown`; since decoded characters may be lone surrogates
(legal for Python strings, not representable as Lean `Char`), this stage
is modelled on codepoint sequences (`List Nat`).  A `none` result models
the uncaught `ValueError`. -/

/-- ASCII decimal digit codepoint (the regex `\d`, ASCII part). -/
def isDigitCp (n : Nat) : Bool := 48 ≤ n && n ≤ 57

/-- ASCII hexadecimal digit codepoint (`[0-9a-fA-F]`). -/
def isHexCp (n : Nat) : Bool :=
  (48 ≤ n && n ≤ 57) || (97 ≤ n && n ≤ 102) || (65 ≤ n && n ≤ 70)

/-- Value of a hexadecimal digit codepoint. -/
def hexVal (n : Nat) : Nat :=
  if 48 ≤ n ∧ n ≤ 57 then n - 48
  else if 97 ≤ n ∧ n ≤ 102 then n - 87
  else if 65 ≤ n ∧ n ≤ 70 then n - 55
  else 0

/-- Matcher for `&#(\d+);` at the current position (`&` = 38, `#` = 35,
`;` = 59): a maximal non-empty digit run followed by a semicolon; returns
the decimal value and the rest. -/
def decEntityAt : List Nat → Option (Nat × List Nat)
  | 38 :: 35 :: u =>
    let ds := u.takeWhile isDigitCp
    if ds = [] then none
    else
      match u.drop ds.length with
      | 59 :: rest => some (ds.foldl (fun a d => 10 * a + (d - 48)) 0, rest)
      | _ => none
  | _ => none

/-- Matcher for `&#x([0-9a-fA-F]+);` (`x` = 120, lowercase only, as in the
source pattern). -/
def hexEntityAt : List Nat → Option (Nat × List Nat)
  | 38 :: 35 :: 120 :: u =>
    let ds := u.takeWhile isHexCp
    if ds = [] then none
    else
      match u.drop ds.length with
      | 59 :: rest => some (ds.foldl (fun a d => 16 * a + hexVal d) 0, rest)
      | _ => none
  | _ => none

/-- One numeric-entity decoding pass: each matched entity is replaced by
`chr(value)`; a value outside `range(0x110000)` fails the whole pass (the
`ValueError` of `chr`). -/
def decodePass (ent : List Nat → Option (Nat × List Nat)) :
    Nat → List Nat → Option (List Nat)
  | 0, s => some s
  | _ + 1, [] => some []
  | fuel + 1, c :: cs =>
    match ent (c :: cs) with
    | some (v, rest) =>
      if v < 1114112 then (decodePass ent fuel rest).map (fun r => v :: r)
      else none
    | none => (decodePass ent fuel cs).map (fun r => c :: r)

/-- The values of the entities a pass decodes, in scan order. -/
def entityVals (ent : List Nat → Option (Nat × List Nat)) :
    Nat → List Nat → List Nat
  | 0, _ => []
  | _ + 1, [] => []
  | fuel + 1, c :: cs =>
    match ent (c :: cs) with
    | some (v, rest) => v :: entityVals ent fuel rest
    | none => entityVals ent fuel cs

/-- Step 13's numeric decoding: the decimal pass, then the hexadecimal
pass on its output. -/
def decodeNumericEntities (s : List Nat) : Option (List Nat) :=
  match decodePass decEntityAt s.length s with
  | some t => decodePass hexEntityAt t.length t
  | none => none

/-- Codepoints of a string. -/
def codes (s : String) : List Nat := s.data.map Char.toNat

/-! ## The timeout checkpoints (C4) -/

/-- The buffer at the second checkpoint (after preservation and comment
removal; `html.unescape`, outside the model, precedes the first). -/
def buf2 (s : List Char) : List Char := removeComments (preserveStage s).2

/-- The buffer at the third checkpoint (after template removal). -/
def buf3 (s : List Char) : List Char := removeComplexTemplates (buf2 s)

/-- The buffer at the fourth checkpoint (after the table stage). -/
def buf4 (s : List Char) : List Char := tableStage (buf3 s)

theorem notMem_append3 {x : Char} {a k b : List Char} (h1 : x ∉ a) (h2 : x ∉ k)
    (h3 : x ∉ b) : x ∉ a ++ k ++ b := by
  simp only [List.mem_append]
  rintro ((h | h) | h) <;> [exact h1 h; exact h2 h; exact h3 h]

theorem head?_append_left {α : Type} {a : List α} (t : List α) (h : a ≠ []) :
    (a ++ t).head? = a.head? := by
  cases a with
  | nil => exact absurd rfl h
  | cons x xs => rfl

theorem getLast?_append_right {α : Type} (t : List α) {b : List α} (h : b ≠ []) :
    (t ++ b).getLast? = b.getLast? := by
  rw [← List.head?_reverse, ← List.head?_reverse, List.reverse_append]
  exact head?_append_left t.reverse (by simpa using h)

/-- The greedy `[^}]*` run over planted content. -/
theorem takeWhile_ne_planted {p : Char} :
    ∀ {y : List Char}, p ∉ y → ∀ (t : List Char),
      (y ++ p :: t).takeWhile (fun c => c ≠ p) = y := by
  intro y
  induction y with
  | nil =>
    intro _ t
    simp only [List.nil_append]
    rw [List.takeWhile_cons_of_neg (by simp)]
  | cons d ds ih =>
    intro hy t
    have hd : d ≠ p := fun e => hy (e ▸ List.mem_cons_self d ds)
    simp only [List.cons_append]
    rw [List.takeWhile_cons_of_pos (by simp [hd])]
    rw [ih (fun hm => hy (List.mem_cons_of_mem d hm)) t]

/-- The lazy matcher on a flat planted template. -/
theorem lazyAt_flat {y z : List Char} (hy : '}' ∉ y) :
    lazyAt ('{' :: '{' :: (y ++ '}' :: '}' :: z)) = some (y, z) := by
  have h1 : lazyAt ('{' :: '{' :: (y ++ '}' :: '}' :: z)) =
      lazyCore (y ++ '}' :: '}' :: z) := rfl
  rw [h1]
  unfold lazyCore
  rw [takeWhile_ne_planted hy ('}' :: z)]
  show (match List.drop y.length (y ++ '}' :: '}' :: z) with
    | '}' :: '}' :: rest => some (y, rest)
    | _ => none) = some (y, z)
  rw [List.drop_left]
  split
  · rename_i rest heq
    injection heq with h1 h2
    injection h2 with h3 h4
    subst h4
    rfl
  · rename_i hne
    exact absurd rfl (hne z)

/-- The lazy template substitution on a flat (non-nested) remaining
template strips exactly the outer brace pair and keeps the inner
content. -/
theorem lazySub_flat {x y z : List Char} (hx : '{' ∉ x) (hy : '}' ∉ y)
    (hz : '{' ∉ z) :
    lazySub (x ++ '{' :: '{' :: (y ++ '}' :: '}' :: z)) = x ++ y ++ z := by
  unfold lazySub runSub
  rw [scanSub_skip lazyAt '{' (fun t r hh => lazyAt_head hh) x _ _ hx
    (by simp [List.length_append])]
  have hf : (x ++ '{' :: '{' :: (y ++ '}' :: '}' :: z)).length - x.length =
      ('{' :: (y ++ '}' :: '}' :: z)).length + 1 := by
    simp only [List.length_append, List.length_cons]
    omega
  rw [hf]
  rw [scanSub]
  rw [lazyAt_flat hy]
  show x ++ (y ++ scanSub lazyAt ('{' :: (y ++ '}' :: '}' :: z)).length z) =
    x ++ y ++ z
  rw [scanSub_id_of_headNeed lazyAt '{' (fun t r hh => lazyAt_head hh) _ z hz]
  simp [List.append_assoc]

/-! ## The exact behaviour of the nowiki preservation pass (C2, C6) -/

/-- A `<nowiki>...</nowiki>` block with literal content `c`. -/
def nwWrap (c : List Char) : List Char :=
  "<nowiki>".data ++ c ++ "</nowiki>".data

/-- The first placeholder key minted for a nowiki block. -/
def nw0Key : List Char := presKey "NOWIKI".data 0

/-- `findClose` finds a planted closing tag after `'<'`-free content. -/
theorem findClose_exact {pat b : List Char} :
    ∀ {c : List Char}, '<' ∉ c →
      findClose pat (c ++ '<' :: (pat ++ b)) = some (c, b) := by
  intro c
  induction c with
  | nil =>
    intro _
    show findClose pat ('<' :: (pat ++ b)) = some ([], b)
    unfold findClose
    rw [if_pos ⟨rfl, isPreCI_append_self pat b⟩]
    rw [List.drop_left]
  | cons x c' ih =>
    intro hc
    have hx : x ≠ '<' := fun e => hc (e ▸ List.mem_cons_self x c')
    show findClose pat (x :: (c' ++ '<' :: (pat ++ b))) = some (x :: c', b)
    unfold findClose
    rw [if_neg (fun hcond => hx hcond.1)]
    rw [ih (fun hm => hc (List.mem_cons_of_mem x hm))]

theorem isSome_map {α β : Type} (f : α → β) (o : Option α) :
    (o.map f).isSome = o.isSome := by cases o <;> rfl

/-- A decoding pass returns normally exactly when every entity value it
decodes is a legal `chr` argument. -/
theorem decodePass_isSome_iff (ent : List Nat → Option (Nat × List Nat)) :
    ∀ (fuel : Nat) (s : List Nat),
      (decodePass ent fuel s).isSome ↔ ∀ v ∈ entityVals ent fuel s, v < 1114112 := by
  intro fuel
  induction fuel with
  | zero => intro s; simp [decodePass, entityVals]
  | succ n ih =>
    intro s
    cases s with
    | nil => simp [decodePass, entityVals]
    | cons c cs =>
      rw [decodePass, entityVals]
      cases hent : ent (c :: cs) with
      | some vr =>
        obtain ⟨v, rest⟩ := vr
        by_cases hv : v < 1114112
        · simp only [if_pos hv, isSome_map]
          rw [ih rest]
          constructor
          · intro h v' hv'
            rcases List.mem_cons.mp hv' with rfl | hv'
            · exact hv
            · exact h v' hv'
          · intro h v' hv'
            exact h v' (List.mem_cons_of_mem _ hv')
        · simp only [if_neg hv, Option.isSome_none]
          constructor
          · intro h; exact absurd h (by simp)
          · intro h; exact absurd (h v (List.mem_cons_self _ _)) hv
      | none =>
        simp only [isSome_map]
        exact ih cs

/-- The nowiki matcher fires on a planted `<nowiki>c</nowiki>` block with
`'<'`-free content, minting the next key for the literal content. -/
theorem nowikiStep_exact {c b : List Char} (hc : '<' ∉ c) (st : PresState) :
    nowikiStep st ('<' :: ("nowiki>".data ++ (c ++ '<' :: ("/nowiki>".data ++ b)))) =
      some ({ blocks := st.blocks ++ [(presKey "NOWIKI".data st.counter, c)],
              counter := st.counter + 1 },
            presKey "NOWIKI".data st.counter, b) := by
  have h1 : exactTagAt "nowiki>".data "/nowiki>".data
      ('<' :: ("nowiki>".data ++ (c ++ '<' :: ("/nowiki>".data ++ b)))) =
      (if isPreCI "nowiki>".data ("nowiki>".data ++ (c ++ '<' :: ("/nowiki>".data ++ b)))
        then findClose "/nowiki>".data
          (("nowiki>".data ++ (c ++ '<' :: ("/nowiki>".data ++ b))).drop
            "nowiki>".data.length)
        else none) := rfl
  have h2 : exactTagAt "nowiki>".data "/nowiki>".data
      ('<' :: ("nowiki>".data ++ (c ++ '<' :: ("/nowiki>".data ++ b)))) = some (c, b) := by
    rw [h1, if_pos (isPreCI_append_self _ _), List.drop_left]
    exact findClose_exact hc
  unfold nowikiStep
  rw [h2]
  rfl

/-- The first preservation pass (`preserve_nowiki`) on a document with one
planted nowiki block and `'<'`-free surroundings. -/
theorem runMint_nowiki {a c b : List Char} (ha : '<' ∉ a) (hc : '<' ∉ c)
    (hb : '<' ∉ b) :
    runMint nowikiStep ⟨[], 0⟩ (a ++ (nwWrap c ++ b)) =
      (⟨[(nw0Key, c)], 1⟩, a ++ (nw0Key ++ b)) := by
  have harr : a ++ (nwWrap c ++ b) =
      a ++ ('<' :: ("nowiki>".data ++ (c ++ '<' :: ("/nowiki>".data ++ b)))) := by
    simp [nwWrap, List.append_assoc]
  unfold runMint
  rw [harr]
  rw [scanSubSt_skip nowikiStep keepSt (fun _ _ => rfl) '<'
    (fun st t r hh => nowikiStep_head hh) a _ _ ⟨[], 0⟩ ha
    (by simp [List.length_append])]
  have hf : (a ++ ('<' :: ("nowiki>".data ++ (c ++ '<' :: ("/nowiki>".data ++ b))))).length
      - a.length = ("nowiki>".data ++ (c ++ '<' :: ("/nowiki>".data ++ b))).length + 1 := by
    simp only [List.length_append, List.length_cons]
    omega
  rw [hf]
  rw [scanSubSt]
  rw [nowikiStep_exact hc ⟨[], 0⟩]
  show ((scanSubSt nowikiStep keepSt _ ⟨[(nw0Key, c)], 1⟩ b).1,
      a ++ (nw0Key ++ (scanSubSt nowikiStep keepSt _ ⟨[(nw0Key, c)], 1⟩ b).2)) =
    (⟨[(nw0Key, c)], 1⟩, a ++ (nw0Key ++ b))
  rw [scanSubSt_id_of_headNeed nowikiStep keepSt (fun _ _ => rfl) '<'
    (fun st t r hh => nowikiStep_head hh) _ _ b hb]

/-- The whole preservation stage on a document with one planted nowiki
block: the content is stored byte-for-byte under the first key and the
buffer holds the placeholder. -/
theorem preserveStage_nowiki {a c b : List Char} (ha : '<' ∉ a) (hc : '<' ∉ c)
    (hb : '<' ∉ b) :
    preserveStage (a ++ (nwWrap c ++ b)) =
      (⟨[(nw0Key, c)], 1⟩, a ++ (nw0Key ++ b)) := by
  have hK : '<' ∉ nw0Key := by decide
  have hbuf : '<' ∉ a ++ (nw0Key ++ b) := by
    rw [← List.append_assoc]
    exact notMem_append3 ha hK hb
  unfold preserveStage
  simp [runMint_nowiki ha hc hb,
    runSub_id nowikiSelfAt '<' (fun _ _ hh => nowikiSelfAt_head hh) hbuf,
    runMint_id mathStep '<' (fun _ _ _ hh => mathStep_head hh) hbuf,
    runMint_id mathChemStep '<' (fun _ _ _ hh => mathChemStep_head hh) hbuf,
    runMint_id (chemStep "chem".data) '<' (fun _ _ _ hh => chemStep_head hh) hbuf,
    runMint_id (chemStep "ce".data) '<' (fun _ _ _ hh => chemStep_head hh) hbuf,
    runMint_id preStep '<' (fun _ _ _ hh => preStep_head hh) hbuf,
    runSub_id codeAt '<' (fun _ _ hh => codeAt_head hh) hbuf,
    runMint_id (synStep "syntaxhighlight".data) '<' (fun _ _ _ hh => synStep_head hh) hbuf,
    runMint_id (synStep "source".data) '<' (fun _ _ _ hh => synStep_head hh) hbuf,
    runSub_id codeLangAt '<' (fun _ _ hh => codeLangAt_head hh) hbuf]

/-- `str.replace` on a buffer with one planted occurrence whose first
character occurs nowhere else. -/
theorem replaceAll_exact {K v a b : List Char} {p : Char} (hK : K.head? = some p)
    (ha : p ∉ a) (hb : p ∉ b) :
    replaceAll K v (a ++ (K ++ b)) = a ++ (v ++ b) := by
  obtain ⟨k0, ks, rfl⟩ : ∃ k0 ks, K = k0 :: ks := by
    cases K with
    | nil => simp at hK
    | cons k0 ks => exact ⟨k0, ks, rfl⟩
  have hk0 : k0 = p := by simpa using hK
  subst hk0
  unfold replaceAll runSub
  have hneed : ∀ t r,
      (if isPre (k0 :: ks) t ∧ (k0 :: ks) ≠ [] then
        some (v, t.drop (k0 :: ks).length) else none) = some r →
      t.head? = some k0 := by
    intro t r h
    by_cases hp : isPre (k0 :: ks) t = true ∧ (k0 :: ks) ≠ []
    · exact isPre_head hp.1
    · rw [if_neg hp] at h
      exact absurd h (by simp)
  rw [scanSub_skip _ k0 (fun t r h => hneed t r h) a _ _ ha
    (by simp [List.length_append])]
  have hf : (a ++ ((k0 :: ks) ++ b)).length - a.length = (ks ++ b).length + 1 := by
    simp only [List.length_append, List.length_cons]
    omega
  rw [hf]
  rw [show ((k0 :: ks) ++ b) = k0 :: (ks ++ b) from rfl]
  rw [scanSub]
  have hfire : (if isPre (k0 :: ks) (k0 :: (ks ++ b)) ∧ (k0 :: ks) ≠ [] then
      some (v, (k0 :: (ks ++ b)).drop (k0 :: ks).length) else none) = some (v, b) := by
    rw [if_pos ⟨by simpa using isPre_append_self (k0 :: ks) b, by simp⟩]
    congr 2
    show ((k0 :: ks) ++ b).drop (k0 :: ks).length = b
    exact List.drop_left _ _
  rw [hfire]
  show a ++ (v ++ scanSub
      (fun t => if isPre (k0 :: ks) t = true ∧ k0 :: ks ≠ [] then
        some (v, List.drop (k0 :: ks).length t) else none)
      (ks ++ b).length b) = a ++ (v ++ b)
  rw [scanSub_id_of_headNeed _ k0 (fun t r h => hneed t r h) _ b hb]

/-- Number of replaced occurrences, over the whole string. -/
def occurrences (pat s : List Char) : Nat := countOccs pat s.length s

theorem countOccs_zero {pat : List Char} {p : Char} (hK : pat.head? = some p) :
    ∀ (fuel : Nat) (s : List Char), p ∉ s → countOccs pat fuel s = 0 := by
  intro fuel
  induction fuel with
  | zero => intro s _; rfl
  | succ n ih =>
    intro s hp
    cases s with
    | nil =>
      have hpre : isPre pat [] = false := by
        cases pat with
        | nil => simp at hK
        | cons q qs => rfl
      simp [countOccs, hpre]
    | cons c cs =>
      have hpre : isPre pat (c :: cs) = false := by
        cases hp2 : isPre pat (c :: cs)
        · rfl
        · exfalso
          cases pat with
          | nil => simp at hK
          | cons q qs =>
            have hh := isPre_head hp2
            simp only [List.head?_cons, Option.some.injEq] at hh hK
            exact hp (by rw [← hK, ← hh]; exact List.mem_cons_self c cs)
      rw [countOccs, if_neg (by simp [hpre])]
      exact ih cs (fun hm => hp (List.mem_cons_of_mem c hm))

theorem countOccs_skip {pat : List Char} {p : Char} (hK : pat.head? = some p) :
    ∀ (a t : List Char) (fuel : Nat), p ∉ a → a.length ≤ fuel →
      countOccs pat fuel (a ++ t) = countOccs pat (fuel - a.length) t := by
  intro a
  induction a with
  | nil => intro t fuel _ _; simp
  | cons x a' ih =>
    intro t fuel hp hlen
    cases fuel with
    | zero => simp at hlen
    | succ n =>
      have hpre : isPre pat (x :: (a' ++ t)) = false := by
        cases hp2 : isPre pat (x :: (a' ++ t))
        · rfl
        · exfalso
          cases pat with
          | nil => simp at hK
          | cons q qs =>
            have hh := isPre_head hp2
            simp only [List.head?_cons, Option.some.injEq] at hh hK
            exact hp (by rw [← hK, ← hh]; exact List.mem_cons_self x a')
      rw [List.cons_append, countOccs, if_neg (by simp [hpre])]
      rw [ih t n (fun hm => hp (List.mem_cons_of_mem x hm)) (by simpa using hlen)]
      simp [List.length_cons, Nat.succ_sub_succ]

/-- A buffer with one planted occurrence of the key, whose first character
occurs nowhere else, is rewritten exactly once. -/
theorem occurrences_exact {K a b : List Char} {p : Char} (hK : K.head? = some p)
    (ha : p ∉ a) (hb : p ∉ b) : occurrences K (a ++ (K ++ b)) = 1 := by
  obtain ⟨k0, ks, rfl⟩ : ∃ k0 ks, K = k0 :: ks := by
    cases K with
    | nil => simp at hK
    | cons k0 ks => exact ⟨k0, ks, rfl⟩
  have hk0 : k0 = p := by simpa using hK
  subst hk0
  unfold occurrences
  rw [countOccs_skip hK a _ _ ha (by simp [List.length_append])]
  have hf : (a ++ ((k0 :: ks) ++ b)).length - a.length = (ks ++ b).length + 1 := by
    simp only [List.length_append, List.length_cons]
    omega
  rw [hf]
  rw [show ((k0 :: ks) ++ b) = k0 :: (ks ++ b) from rfl]
  rw [countOccs, if_pos (by simpa using isPre_append_self (k0 :: ks) b)]
  have hdr : (k0 :: (ks ++ b)).drop (k0 :: ks).length = b := by
    show ((k0 :: ks) ++ b).drop (k0 :: ks).length = b
    exact List.drop_left _ _
  rw [hdr]
  rw [countOccs_zero hK _ b hb]

theorem containsSub_eq_false {pat s : List Char} {p : Char} (hK : pat.head? = some p)
    (h : p ∉ s) : containsSub pat s = false := by
  induction s with
  | nil =>
    cases pat with
    | nil => simp at hK
    | cons q qs => rfl
  | cons c cs ih =>
    have hpre : isPre pat (c :: cs) = false := by
      cases hp2 : isPre pat (c :: cs)
      · rfl
      · exfalso
        cases pat with
        | nil => simp at hK
        | cons q qs =>
          have hh := isPre_head hp2
          simp only [List.head?_cons, Option.some.injEq] at hh hK
          exact h (by rw [← hK, ← hh]; exact List.mem_cons_self c cs)
    rw [containsSub, hpre]
    simpa using ih (fun hm => h (List.mem_cons_of_mem c hm))

/-! ## The assembled pipeline around the restoration point (C2, C6) -/

/-- The buffer to which the restoration step (`text.replace` per stored
block) is applied on the untripped path: the output of the emphasis stage
over the table stage over the template stage over the comment stage. -/
def restoreInput (s : List Char) : List Char := emphasisStage (buf4 s)

/-- On the untripped path the model is the final cleanup of the
restoration applied to `restoreInput`. -/
theorem convertModel_noTrips {s : List Char} (hne : s ≠ [])
    (hlen : s.length ≤ 2000000) :
    convertModel noTrips s =
      finalCleanup (restoreBlocks (preserveStage s).1.blocks (restoreInput s)) := by
  unfold convertModel restoreInput buf4 buf3 buf2
  rw [if_neg hne, if_neg (by omega : ¬ 2000000 < s.length)]
  show (if noTrips.t1 = true then _ else _) = _
  rw [if_neg (by simp [noTrips])]
  show (if noTrips.t2 = true then _ else _) = _
  rw [if_neg (by simp [noTrips])]
  show (if noTrips.t3 = true then _ else _) = _
  rw [if_neg (by simp [noTrips])]
  show (if noTrips.t4 = true then _ else _) = _
  rw [if_neg (by simp [noTrips])]

/-- On a document with one planted nowiki block between plain alphanumeric
surroundings, the buffer at the restoration point holds the placeholder
between the untouched surroundings. -/
theorem restoreInput_nowiki {a c b : List Char}
    (ha : ∀ x ∈ a, plainChar x = true) (hb : ∀ x ∈ b, plainChar x = true)
    (hc : '<' ∉ c) :
    restoreInput (a ++ (nwWrap c ++ b)) = a ++ (nw0Key ++ b) := by
  have hbuf : ∀ x : Char, plainChar x = false → x ∉ nw0Key →
      x ∉ a ++ (nw0Key ++ b) := by
    intro x hx hk
    rw [← List.append_assoc]
    exact notMem_append3 (notMem_of_plain hx ha) hk (notMem_of_plain hx hb)
  unfold restoreInput buf4 buf3 buf2
  rw [preserveStage_nowiki (notMem_of_plain (by decide) ha) hc
    (notMem_of_plain (by decide) hb)]
  show emphasisStage (tableStage (removeComplexTemplates
    (removeComments (a ++ (nw0Key ++ b))))) = a ++ (nw0Key ++ b)
  rw [removeComments_id (hbuf '<' (by decide) (by decide)),
    removeComplexTemplates_id (hbuf '\x7b' (by decide) (by decide))
      (hbuf '\x7d' (by decide) (by decide)),
    tableStage_id (hbuf '\x7b' (by decide) (by decide))
      (hbuf '"' (by decide) (by decide)) (hbuf '|' (by decide) (by decide)),
    emphasisStage_id (hbuf '\'' (by decide) (by decide))]

/-- Full round trip of one planted nowiki block: the literal content comes
out byte-identical between the untouched surroundings. -/
theorem convertModel_nowiki {a c b : List Char}
    (hane : a ≠ []) (hbne : b ≠ [])
    (ha : ∀ x ∈ a, plainChar x = true) (hb : ∀ x ∈ b, plainChar x = true)
    (hlen : (a ++ (nwWrap c ++ b)).length ≤ 2000000)
    (hc1 : '<' ∉ c) (hc2 : '\n' ∉ c) (hc3 : '*' ∉ c) (hc4 : '_' ∉ c)
    (hc5 : '[' ∉ c) :
    convertModel noTrips (a ++ (nwWrap c ++ b)) = a ++ (c ++ b) := by
  have hne : a ++ (nwWrap c ++ b) ≠ [] := by
    cases a with
    | nil => exact absurd rfl hane
    | cons x xs => simp
  have hnot3 : ∀ x : Char, plainChar x = false → x ∉ c → x ∉ a ++ (c ++ b) := by
    intro x hx hxc
    rw [← List.append_assoc]
    exact notMem_append3 (notMem_of_plain hx ha) hxc (notMem_of_plain hx hb)
  rw [convertModel_noTrips hne hlen]
  rw [restoreInput_nowiki ha hb hc1]
  rw [preserveStage_nowiki (notMem_of_plain (by decide) ha) hc1
    (notMem_of_plain (by decide) hb)]
  show finalCleanup (replaceAll nw0Key c (a ++ (nw0Key ++ b))) = a ++ (c ++ b)
  rw [replaceAll_exact (by decide : nw0Key.head? = some '_')
    (notMem_of_plain (by decide) ha) (notMem_of_plain (by decide) hb)]
  apply finalCleanup_id
  · exact hnot3 '\n' (by decide) hc2
  · exact hnot3 '*' (by decide) hc3
  · exact hnot3 '_' (by decide) hc4
  · exact hnot3 '[' (by decide) hc5
  · intro ch hch
    rw [head?_append_left _ hane] at hch
    refine pyWs_of_plain (ha ch ?_)
    cases a with
    | nil => exact absurd rfl hane
    | cons d ds =>
      simp only [List.head?_cons, Option.some.injEq] at hch
      exact hch ▸ List.mem_cons_self d ds
  · intro ch hch
    rw [← List.append_assoc, getLast?_append_right _ hbne] at hch
    exact pyWs_of_plain (hb ch (List.mem_of_mem_getLast? hch))

/-! ## Structural emission of `convert_wikitable` (C9) -/

theorem padTrunc_length (n : Nat) (r : List (List Char)) :
    (padTrunc n r).length = n := by
  unfold padTrunc
  rw [List.length_take, List.length_append, List.length_replicate]
  omega

/-- Below both size tiers, `convert_wikitable` takes the structural parse
path. -/
theorem convertWikitable_structural {content : List Char}
    (h1 : content.length ≤ 50000) (h2 : (splitLines content).length ≤ 500) :
    convertWikitable content =
      (let st := (splitLines content).foldl tableLine ⟨[], [], []⟩
       let rows := if st.current ≠ [] then st.rows ++ [st.current] else st.rows
       let md := buildTable st.headers rows
       if md ≠ [] then '\n' :: joinLines md ++ ['\n'] else []) := by
  unfold convertWikitable
  rw [if_neg (by omega : ¬ 50000 < content.length),
    if_neg (by omega : ¬ 500 < (splitLines content).length)]

/-! ## The ten claims -/

/-- C1 (corrected). The numeric-entity decoding of step 13 succeeds — no
`ValueError` from `chr` — exactly when every decoded entity value, in both
the decimal and the hexadecimal pass, is below `0x110000`; so the claim's
"never raises for any input string" holds only under that bound. -/
theorem numeric_decode_total_iff (s : List Nat) :
    (decodeNumericEntities s).isSome = true ↔
      ((∀ v ∈ entityVals decEntityAt s.length s, v < 1114112) ∧
       ∀ t, decodePass decEntityAt s.length s = some t →
         ∀ v ∈ entityVals hexEntityAt t.length t, v < 1114112) := by
  unfold decodeNumericEntities
  cases hdec : decodePass decEntityAt s.length s with
  | none =>
    simp only [Option.isSome_none]
    constructor
    · intro h
      exact absurd h (by simp)
    · rintro ⟨h1, -⟩
      have hs := (decodePass_isSome_iff decEntityAt s.length s).mpr h1
      rw [hdec] at hs
      exact absurd hs (by simp)
  | some t =>
    constructor
    · intro h
      refine ⟨(decodePass_isSome_iff decEntityAt s.length s).mp
        (by rw [hdec]; rfl), ?_⟩
      intro t' ht'
      injection ht' with ht'
      subst ht'
      exact (decodePass_isSome_iff hexEntityAt t.length t).mp h
    · rintro ⟨-, h2⟩
      exact (decodePass_isSome_iff hexEntityAt t.length t).mpr (h2 t rfl)

/-- The decimal entity `&#1114112;` decodes to the first codepoint outside
`chr`'s range and fails the pass, while `&#65;` decodes fine. -/
theorem chr_range_counterexample :
    decodeNumericEntities (codes "&#1114112;") = none ∧
    decodeNumericEntities (codes "&#65;") = some (codes "A") := by decide

/-- C2 (corrected). On a document that is one nowiki block between plain
alphanumeric surroundings, the preservation stage mints exactly one
placeholder, that placeholder occurs exactly once in the buffer reaching
the restoration step, the restoration substitutes the stored content, and
the final output carries no placeholder.  The unrestricted claim fails:
a placeholder minted inside a `\x7b\x7b...\x7d\x7d` template is deleted by
`remove_complex_templates` before restoration. -/
theorem placeholder_restored_once_planted {a c b : List Char}
    (hane : a ≠ []) (hbne : b ≠ [])
    (ha : ∀ x ∈ a, plainChar x = true) (hb : ∀ x ∈ b, plainChar x = true)
    (hlen : (a ++ (nwWrap c ++ b)).length ≤ 2000000)
    (hc1 : '<' ∉ c) (hc2 : '\n' ∉ c) (hc3 : '*' ∉ c) (hc4 : '_' ∉ c)
    (hc5 : '[' ∉ c) :
    (preserveStage (a ++ (nwWrap c ++ b))).1.blocks = [(nw0Key, c)] ∧
    occurrences nw0Key (restoreInput (a ++ (nwWrap c ++ b))) = 1 ∧
    convertModel noTrips (a ++ (nwWrap c ++ b)) = a ++ (c ++ b) ∧
    containsSub nw0Key (convertModel noTrips (a ++ (nwWrap c ++ b))) = false := by
  have hkey : (preserveStage (a ++ (nwWrap c ++ b))).1.blocks = [(nw0Key, c)] := by
    rw [preserveStage_nowiki (notMem_of_plain (by decide) ha) hc1
      (notMem_of_plain (by decide) hb)]
  have hconv := convertModel_nowiki hane hbne ha hb hlen hc1 hc2 hc3 hc4 hc5
  refine ⟨hkey, ?_, hconv, ?_⟩
  · rw [restoreInput_nowiki ha hb hc1]
    exact occurrences_exact (by decide : nw0Key.head? = some '_')
      (notMem_of_plain (by decide : plainChar '_' = false) ha)
      (notMem_of_plain (by decide : plainChar '_' = false) hb)
  · rw [hconv]
    refine containsSub_eq_false (by decide : nw0Key.head? = some '_') ?_
    rw [← List.append_assoc]
    exact notMem_append3 (notMem_of_plain (by decide) ha) hc4
      (notMem_of_plain (by decide) hb)

/-- Concrete instance of the restored-once invariant. -/
theorem placeholder_restored_once_witness :
    (preserveStage ("x".data ++ (nwWrap "''y''".data ++ "z".data))).1.blocks =
      [(nw0Key, "''y''".data)] ∧
    occurrences nw0Key
      (restoreInput ("x".data ++ (nwWrap "''y''".data ++ "z".data))) = 1 ∧
    convertModel noTrips ("x".data ++ (nwWrap "''y''".data ++ "z".data)) =
      "x".data ++ ("''y''".data ++ "z".data) ∧
    containsSub nw0Key
      (convertModel noTrips ("x".data ++ (nwWrap "''y''".data ++ "z".data))) =
      false :=
  placeholder_restored_once_planted (by decide) (by decide) (by decide)
    (by decide) (by decide) (by decide) (by decide) (by decide) (by decide)
    (by decide)

/-- A placeholder minted inside a template is deleted before restoration:
the minted key never reaches the restoration buffer and the preserved
content is lost. -/
theorem placeholder_lost_in_template :
    (preserveStage "\x7b\x7b<nowiki>abc</nowiki>\x7d\x7d".data).1.blocks =
      [(nw0Key, "abc".data)] ∧
    occurrences nw0Key
      (restoreInput "\x7b\x7b<nowiki>abc</nowiki>\x7d\x7d".data) = 0 ∧
    convertModel noTrips "\x7b\x7b<nowiki>abc</nowiki>\x7d\x7d".data = [] := by
  decide

/-- C3 (corrected). On documents generated by the balanced-template
grammar — interleavings of non-brace characters and outermost
`\x7b\x7b...\x7d\x7d` spans with depth at most 50 — the generic scan
returns exactly the outside characters and its output carries no `\x7b\x7b`
or `\x7d\x7d` marker.  The claim's broader precondition ("every
`\x7b\x7b` has a matching `\x7d\x7d`") is not enough: a stray `\x7d\x7d`
at depth 0 is dropped, not copied. -/
theorem balanced_scan_exact {s out : List Char} (h : Chunks s out) :
    genericBraceRemoval s = out ∧
    containsSub "\x7b\x7b".data (genericBraceRemoval s) = false ∧
    containsSub "\x7d\x7d".data (genericBraceRemoval s) = false := by
  have he := genericBraceRemoval_chunks h
  refine ⟨he, ?_, ?_⟩
  · rw [he]
    exact containsSub_eq_false (by decide)
      (fun hm => (chunks_out_free h _ hm).1 rfl)
  · rw [he]
    exact containsSub_eq_false (by decide)
      (fun hm => (chunks_out_free h _ hm).2 rfl)

/-- Concrete instance of the balanced-scan exactness. -/
theorem balanced_scan_witness :
    genericBraceRemoval "a\x7b\x7bb\x7d\x7dc".data = "ac".data ∧
    containsSub "\x7b\x7b".data
      (genericBraceRemoval "a\x7b\x7bb\x7d\x7dc".data) = false ∧
    containsSub "\x7d\x7d".data
      (genericBraceRemoval "a\x7b\x7bb\x7d\x7dc".data) = false :=
  balanced_scan_exact
    (Chunks.chr (by decide) (by decide)
      (@Chunks.span "b".data "c".data "c".data
        (Nest.chr (by decide) (by decide) (Nest.nil 1))
        (Chunks.chr (by decide) (by decide) Chunks.nil)))

/-- A stray `\x7d\x7d` at depth 0 — allowed by the claim's precondition,
which only requires every `\x7b\x7b` to be matched — is silently dropped
instead of copied. -/
theorem stray_close_dropped :
    containsSub "\x7b\x7b".data "\x7d\x7da".data = false ∧
    genericBraceRemoval "\x7d\x7da".data = "a".data := by decide

/-- C4 (confirmed). Each tripped checkpoint returns the current buffer
under the single shallow substitution `timeoutReturn` with all later
stages skipped; the result is capped at 5000 characters; and on a flat
remaining template the substitution strips exactly the outer braces,
keeping the inner content. -/
theorem timeout_checkpoints (tr : Trips) (s : List Char) (hne : s ≠ [])
    (hlen : s.length ≤ 2000000) :
    (tr.t1 = true → convertModel tr s = timeoutReturn s) ∧
    (tr.t1 = false → tr.t2 = true → convertModel tr s = timeoutReturn (buf2 s)) ∧
    (tr.t1 = false → tr.t2 = false → tr.t3 = true →
      convertModel tr s = timeoutReturn (buf3 s)) ∧
    (tr.t1 = false → tr.t2 = false → tr.t3 = false → tr.t4 = true →
      convertModel tr s = timeoutReturn (buf4 s)) ∧
    (∀ t : List Char, (timeoutReturn t).length ≤ 5000) ∧
    (∀ x y z : List Char, '\x7b' ∉ x → '\x7d' ∉ y → '\x7b' ∉ z →
      timeoutReturn (x ++ '\x7b' :: '\x7b' :: (y ++ '\x7d' :: '\x7d' :: z)) =
        (x ++ y ++ z).take 5000) := by
  refine ⟨?_, ?_, ?_, ?_, ?_, ?_⟩
  · intro h1
    unfold convertModel
    rw [if_neg hne, if_neg (by omega : ¬ 2000000 < s.length)]
    show (if tr.t1 = true then _ else _) = _
    rw [if_pos h1]
  · intro h1 h2
    unfold convertModel buf2
    rw [if_neg hne, if_neg (by omega : ¬ 2000000 < s.length)]
    show (if tr.t1 = true then _ else _) = _
    rw [if_neg (by simp [h1])]
    show (if tr.t2 = true then _ else _) = _
    rw [if_pos h2]
  · intro h1 h2 h3
    unfold convertModel buf3 buf2
    rw [if_neg hne, if_neg (by omega : ¬ 2000000 < s.length)]
    show (if tr.t1 = true then _ else _) = _
    rw [if_neg (by simp [h1])]
    show (if tr.t2 = true then _ else _) = _
    rw [if_neg (by simp [h2])]
    show (if tr.t3 = true then _ else _) = _
    rw [if_pos h3]
  · intro h1 h2 h3 h4
    unfold convertModel buf4 buf3 buf2
    rw [if_neg hne, if_neg (by omega : ¬ 2000000 < s.length)]
    show (if tr.t1 = true then _ else _) = _
    rw [if_neg (by simp [h1])]
    show (if tr.t2 = true then _ else _) = _
    rw [if_neg (by simp [h2])]
    show (if tr.t3 = true then _ else _) = _
    rw [if_neg (by simp [h3])]
    show (if tr.t4 = true then _ else _) = _
    rw [if_pos h4]
  · intro t
    unfold timeoutReturn
    rw [List.length_take]
    omega
  · intro x y z hx hy hz
    unfold timeoutReturn
    rw [lazySub_flat hx hy hz]

/-- Concrete instance of the first checkpoint's return. -/
theorem timeout_checkpoints_witness :
    convertModel ⟨true, false, false, false⟩ "ab".data =
      timeoutReturn "ab".data :=
  (timeout_checkpoints ⟨true, false, false, false⟩ "ab".data (by decide)
    (by decide)).1 rfl

/-- C5 (corrected). When `chem` does not occur in the lowercased full
match, a math match is a fenced `math` block exactly under the claimed
conditions (multi-line raw content, stripped length over 50, or an
explicit block-display attribute) and is inline `$...$` otherwise.  The
claim's unconditional "if and only if" fails: `is_chem` is tested on the
whole match including the content, and a chem-classified match is always
a fenced block. -/
theorem math_render_decision (full contentRaw : List Char)
    (hchem : containsSub "chem".data (full.map Char.toLower) = false) :
    ((contentRaw.contains '\n' = true ∨ 50 < (pyStrip contentRaw).length ∨
        containsSub "display=\"block\"".data full = true ∨
        containsSub "display=block".data full = true) →
      mathValue full contentRaw =
        "\n```math\n".data ++ pyStrip contentRaw ++ "\n```\n".data) ∧
    ((contentRaw.contains '\n' = false ∧ (pyStrip contentRaw).length ≤ 50 ∧
        containsSub "display=\"block\"".data full = false ∧
        containsSub "display=block".data full = false) →
      mathValue full contentRaw = '$' :: pyStrip contentRaw ++ ['$']) := by
  have hchem' : ¬ (containsSub "chem".data (full.map Char.toLower) = true) := by
    simp [hchem]
  constructor
  · intro hcond
    unfold mathValue
    rw [if_neg hchem']
    have hcond' : (contentRaw.contains '\n' ||
        50 < (pyStrip contentRaw).length ||
        (containsSub "display=\"block\"".data full ||
          containsSub "display=block".data full)) = true := by
      rcases hcond with h | h | h | h
      · rw [h]; rfl
      · simp [h]
      · simp [h]
      · simp [h]
    rw [if_pos hcond']
  · rintro ⟨h1, h2, h3, h4⟩
    unfold mathValue
    rw [if_neg hchem']
    have hcond' : ¬ ((contentRaw.contains '\n' ||
        50 < (pyStrip contentRaw).length ||
        (containsSub "display=\"block\"".data full ||
          containsSub "display=block".data full)) = true) := by
      simp only [h1, h3, h4, Bool.or_false, Bool.false_or,
        decide_eq_true_eq]
      omega
    rw [if_neg hcond']

/-- Concrete instance of the inline decision. -/
theorem math_render_decision_witness :
    mathValue "<math>x</math>".data "x".data =
      '$' :: pyStrip "x".data ++ ['$'] :=
  (math_render_decision "<math>x</math>".data "x".data (by decide)).2
    (by decide)

/-- `chem` inside the content of a plain math tag forces a fenced
chemistry block although the content is one short line with no display
attribute. -/
theorem chem_in_content_forces_block :
    mathValue "<math>Hchem</math>".data "Hchem".data =
      "\n```chemistry\nHchem\n```\n".data ∧
    "Hchem".data.contains '\n' = false ∧
    (pyStrip "Hchem".data).length ≤ 50 ∧
    containsSub "display=\"block\"".data "<math>Hchem</math>".data = false ∧
    containsSub "display=block".data "<math>Hchem</math>".data = false := by
  decide

/-- C6 (corrected). The literal content of a nowiki block between plain
alphanumeric surroundings appears byte-identical in the final output,
with nothing added around it.  The unrestricted claim fails: a nowiki
block inside a `\x7b\x7b...\x7d\x7d` template is deleted with the
template. -/
theorem nowiki_literal_roundtrip {a c b : List Char}
    (hane : a ≠ []) (hbne : b ≠ [])
    (ha : ∀ x ∈ a, plainChar x = true) (hb : ∀ x ∈ b, plainChar x = true)
    (hlen : (a ++ (nwWrap c ++ b)).length ≤ 2000000)
    (hc1 : '<' ∉ c) (hc2 : '\n' ∉ c) (hc3 : '*' ∉ c) (hc4 : '_' ∉ c)
    (hc5 : '[' ∉ c) :
    convertModel noTrips (a ++ (nwWrap c ++ b)) = a ++ (c ++ b) :=
  convertModel_nowiki hane hbne ha hb hlen hc1 hc2 hc3 hc4 hc5

/-- Concrete instance of the literal round trip. -/
theorem nowiki_literal_roundtrip_witness :
    convertModel noTrips ("p".data ++ (nwWrap "e=mc2".data ++ "q".data)) =
      "p".data ++ ("e=mc2".data ++ "q".data) :=
  nowiki_literal_roundtrip (by decide) (by decide) (by decide) (by decide)
    (by decide) (by decide) (by decide) (by decide) (by decide) (by decide)

/-- Nowiki content inside a template never reaches the output. -/
theorem nowiki_lost_in_template :
    containsSub "abc".data
      (convertModel noTrips "\x7b\x7b<nowiki>abc</nowiki>\x7d\x7d".data) =
      false ∧
    convertModel noTrips "\x7b\x7b<nowiki>abc</nowiki>\x7d\x7d".data = [] := by
  decide

/-- C7 (corrected). The empty input returns empty immediately, and plain
alphanumeric non-empty input below the size ceiling returns itself, hence
non-empty output.  The unrestricted non-emptiness claim fails: an input
that is one template collapses to the empty string. -/
theorem convert_empty_vs_plain (s : List Char) (hne : s ≠ [])
    (hlen : s.length ≤ 2000000) (h : ∀ c ∈ s, plainChar c = true) :
    convertModel noTrips [] = [] ∧
    convertModel noTrips s = s ∧
    convertModel noTrips s ≠ [] := by
  refine ⟨rfl, convertModel_plain hne hlen h, ?_⟩
  rw [convertModel_plain hne hlen h]
  exact hne

/-- Concrete instance of the output shape. -/
theorem convert_empty_vs_plain_witness :
    convertModel noTrips [] = [] ∧
    convertModel noTrips "abc".data = "abc".data ∧
    convertModel noTrips "abc".data ≠ [] :=
  convert_empty_vs_plain "abc".data (by decide) (by decide) (by decide)

/-- A non-empty input that is one template collapses to empty output. -/
theorem nonempty_input_empty_output :
    "\x7b\x7bx\x7d\x7d".data ≠ [] ∧
    convertModel noTrips "\x7b\x7bx\x7d\x7d".data = [] := by decide

/-- C8 (corrected). The conversion is idempotent on plain alphanumeric
text.  The unrestricted claim fails: nowiki-protected wikitext markup is
emitted literally by the first run and converted by the second. -/
theorem convert_idempotent_plain (s : List Char) (hne : s ≠ [])
    (hlen : s.length ≤ 2000000) (h : ∀ c ∈ s, plainChar c = true) :
    convertModel noTrips (convertModel noTrips s) = convertModel noTrips s := by
  rw [convertModel_plain hne hlen h]
  exact convertModel_plain hne hlen h

/-- Concrete instance of idempotence. -/
theorem convert_idempotent_plain_witness :
    convertModel noTrips (convertModel noTrips "abc".data) =
      convertModel noTrips "abc".data :=
  convert_idempotent_plain "abc".data (by decide) (by decide) (by decide)

/-- The first run of `<nowiki>''x''</nowiki>` emits the literal `''x''`,
which the second run converts to `*x*`: double conversion is not a
no-op. -/
theorem double_convert_changes :
    convertModel noTrips
        (convertModel noTrips "<nowiki>''x''</nowiki>".data) ≠
      convertModel noTrips "<nowiki>''x''</nowiki>".data := by decide

/-- C9 (confirmed). On the structural parse path with a non-empty header
list, the emitted table is the header row, exactly one separator row with
one `---` cell per header, and the data rows each padded or truncated to
the header count. -/
theorem wikitable_structural_emission (content : List Char) (st : TState)
    (rows : List (List (List Char)))
    (h1 : content.length ≤ 50000) (h2 : (splitLines content).length ≤ 500)
    (hst : st = (splitLines content).foldl tableLine ⟨[], [], []⟩)
    (hrows : rows = if st.current ≠ [] then st.rows ++ [st.current] else st.rows)
    (hh : st.headers ≠ []) :
    convertWikitable content =
      '\n' :: joinLines (renderRow st.headers ::
        renderRow (List.replicate st.headers.length "---".data) ::
        rows.map (fun r => renderRow (padTrunc st.headers.length r))) ++ ['\n'] ∧
    ∀ r ∈ rows, (padTrunc st.headers.length r).length = st.headers.length := by
  have hmd : buildTable st.headers rows =
      renderRow st.headers ::
        renderRow (List.replicate st.headers.length "---".data) ::
        rows.map (fun r => renderRow (padTrunc st.headers.length r)) := by
    unfold buildTable
    rw [if_pos hh]
  constructor
  · rw [convertWikitable_structural h1 h2, ← hst]
    show (let rows' := if st.current ≠ [] then st.rows ++ [st.current] else st.rows
          let md := buildTable st.headers rows'
          if md ≠ [] then '\n' :: joinLines md ++ ['\n'] else []) = _
    rw [← hrows]
    show (if buildTable st.headers rows ≠ [] then
        '\n' :: joinLines (buildTable st.headers rows) ++ ['\n'] else []) = _
    rw [hmd, if_pos (by simp)]
  · intro r _
    exact padTrunc_length st.headers.length r

/-- Concrete instance: a two-column table with one data row. -/
theorem wikitable_structural_emission_witness :
    convertWikitable "\n!A!!B\n|-\n|1||2\n".data =
      '\n' :: joinLines (renderRow ["A".data, "B".data] ::
        renderRow (List.replicate 2 "---".data) ::
        [["1".data, "2".data]].map
          (fun r => renderRow (padTrunc 2 r))) ++ ['\n'] :=
  (wikitable_structural_emission "\n!A!!B\n|-\n|1||2\n".data
    ⟨["A".data, "B".data], [], ["1".data, "2".data]⟩
    [["1".data, "2".data]]
    (by decide) (by decide) (by decide) (by decide) (by decide)).1

/-- C10 (corrected). The iteration counter of the balanced-brace scan is
bounded by the input length, so the post-loop budget fallback is
unreachable for every non-empty input.  For the empty input the claim
fails: the budget is `0` and the `0 ≥ 0` post-loop check takes the
fallback branch. -/
theorem brace_scan_budget (s : List Char) (hne : s ≠ []) :
    (braceScanOut s).2.1 ≤ s.length ∧ iterFallback s = false := by
  have hcount := braceLoop_count_le s.length s (2 * s.length) 0 0
  have h1 : (braceScanOut s).2.1 ≤ s.length := by
    simpa [braceScanOut] using hcount
  have h2 : 1 ≤ s.length := by
    cases s with
    | nil => exact absurd rfl hne
    | cons x xs => simp
  refine ⟨h1, ?_⟩
  unfold iterFallback
  rw [decide_eq_false_iff_not]
  omega

/-- Concrete instance of the budget bound. -/
theorem brace_scan_budget_witness :
    (braceScanOut "a".data).2.1 ≤ "a".data.length ∧
    iterFallback "a".data = false :=
  brace_scan_budget "a".data (by decide)

/-- On the empty input the iteration budget `2 * 0` is met by the final
count `0`, so the fallback branch is taken. -/
theorem iteration_budget_empty_input : iterFallback [] = true := by decide

end WikiMD
